import Mathlib

/-!
Verification of the tmemo spaced-repetition engine against its
natural-language specification.

Shallow embedding conventions:
* Rust `i32`/`i64`/`u64` machine integers are modelled as `Int`/`Nat`; where
  wrap-around or truncation matters the reduction `% 2^w` is written
  explicitly (see the 64-bit helpers below).
* Rust `f64` values are modelled as real numbers (`ℝ`).  The floating-point
  code under verification only produces and consumes these values through
  arithmetic and order comparisons whose truth is robust to rounding at the
  margins used by the proofs, so the real-number idealisation is faithful for
  the properties stated here.
* Rust `String`/`&str` text is modelled as `List Char` (`Str` below); byte
  offsets of the source become character offsets.  All inputs exercised by
  the claims are ASCII, where the two coincide.
* Fallible operations (panics, `unwrap`, `Result::Err`) are modelled with
  `Option`, returning `none` where the source program aborts.
-/

set_option linter.dupNamespace false

namespace Tmemo

/-- Text is modelled as a list of characters (source: Rust `String`). -/
abbrev Str := List Char

/-! ## Calendar (src/date.rs) -/

/-- Integer day-count date (source: `struct Date { day: i32 }`).  The day
field is mathematically an integer; operations that check `i32` overflow in
the source do so explicitly below. -/
structure Date where
  day : Int
deriving DecidableEq, Repr

/-- Source: `Date::is_after` — `self.day >= other.day`. -/
def Date.is_after (d other : Date) : Bool := d.day ≥ other.day

/-- Source: `Date::checked_add_days` — `self.day.checked_add(d)`, which fails
exactly when the sum leaves the `i32` range. -/
def Date.checked_add_days (d : Date) (n : Int) : Option Date :=
  if -(2^31) ≤ d.day + n ∧ d.day + n < 2^31 then some ⟨d.day + n⟩ else none

/-! ## Deterministic PRNG (src/rand.rs) -/

/-- Source: `struct SplitMix64 { state: u64 }`; the state is a `u64`, kept
as a `Nat` reduced modulo `2^64` by every operation. -/
structure SplitMix64 where
  state : Nat
deriving DecidableEq, Repr

/-- Source: `SplitMix64::next_rand`.  Every arithmetic step of the `u64`
computation is reduced modulo `2^64`.  Returns the drawn value and the
advanced generator. -/
def SplitMix64.next_rand (g : SplitMix64) : Nat × SplitMix64 :=
  let s := (g.state + 0x9e3779b97f4a7c15) % 2^64
  let z := s
  let z := ((z ^^^ (z >>> 30)) * 0xbf58476d1ce4e5b9) % 2^64
  let z := ((z ^^^ (z >>> 27)) * 0x94d049bb133111eb) % 2^64
  (z ^^^ (z >>> 31), ⟨s⟩)

/-- Source: `SplitMix64::next_float` — `next_rand() as f64 / 2^64` scaled
into `[low, high)`. -/
noncomputable def SplitMix64.next_float (g : SplitMix64) (low high : ℝ) :
    ℝ × SplitMix64 :=
  let (z, g') := g.next_rand
  ((z : ℝ) / 2^64 * (high - low) + low, g')

/-! ## Review log encoding (src/fsrs.rs, `ReviewLogItem`) -/

/-- Source: `enum ReviewAnswer`. -/
inductive ReviewAnswer where
  | Again
  | Hard
  | Good
  | Easy
  | Bury
deriving DecidableEq, Repr

/-- Source: `enum ReviewResult`. -/
inductive ReviewResult where
  | Again
  | Discard
deriving DecidableEq, Repr

/-- Source: `struct ReviewLogItem { answer, day }`. -/
structure ReviewLogItem where
  answer : ReviewAnswer
  day : Date
deriving DecidableEq, Repr

/-- Two's-complement 64-bit pattern of an `i64` value, as a `Nat` below
`2^64`. -/
def toNat64 (x : Int) : Nat := (x % 2^64).toNat

/-- Value of a 64-bit pattern read back as a signed `i64`. -/
def toInt64 (n : Nat) : Int :=
  if n % 2^64 < 2^63 then ((n % 2^64 : Nat) : Int) else ((n % 2^64 : Nat) : Int) - 2^64

/-- Wrapping `i64` shift-left (source operator `<<` at 64 bits). -/
def shl64 (x : Int) (n : Nat) : Int := toInt64 (toNat64 x <<< n)

/-- Bitwise `i64` or (source operator `|`), computed on the two's-complement
patterns. -/
def lor64 (x y : Int) : Int := toInt64 (Nat.lor (toNat64 x) (toNat64 y))

/-- Source: `ReviewLogItem::encode` — outcome code shifted into the high 32
bits, or-ed with the day number sign-extended to `i64` (sign extension is the
identity on the mathematical value). -/
def ReviewLogItem.encode (item : ReviewLogItem) : Int :=
  let value : Int :=
    match item.answer with
    | ReviewAnswer.Bury => 0
    | ReviewAnswer.Again => 1
    | ReviewAnswer.Hard => 2
    | ReviewAnswer.Good => 3
    | ReviewAnswer.Easy => 4
  lor64 (shl64 value 32) item.day.day

/-- Source: `ReviewLogItem::from` — match on `value >> 32` (arithmetic shift
of an `i64`, i.e. floor division by `2^32`), day from `value & 0xFFFFFFFF`
cast `as i32` (wrapping).  Unknown outcome codes give `Err`, modelled as
`none`. -/
def ReviewLogItem.fromInt (value : Int) : Option ReviewLogItem :=
  let hi := value / 2^32
  let low := value % 2^32
  let dayVal : Int := if low < 2^31 then low else low - 2^32
  if hi = 0 then some ⟨ReviewAnswer.Bury, ⟨dayVal⟩⟩
  else if hi = 1 then some ⟨ReviewAnswer.Again, ⟨dayVal⟩⟩
  else if hi = 2 then some ⟨ReviewAnswer.Hard, ⟨dayVal⟩⟩
  else if hi = 3 then some ⟨ReviewAnswer.Good, ⟨dayVal⟩⟩
  else if hi = 4 then some ⟨ReviewAnswer.Easy, ⟨dayVal⟩⟩
  else none

/-! ## Memory model data (src/fsrs.rs) -/

/-- Source: `struct FSRSParams { w: [f64; 17], target_retention: f64 }`.
The seventeen weights are individual real fields `w0`‥`w16`, mirroring the
indices of the source array. -/
structure FSRSParams where
  w0 : ℝ
  w1 : ℝ
  w2 : ℝ
  w3 : ℝ
  w4 : ℝ
  w5 : ℝ
  w6 : ℝ
  w7 : ℝ
  w8 : ℝ
  w9 : ℝ
  w10 : ℝ
  w11 : ℝ
  w12 : ℝ
  w13 : ℝ
  w14 : ℝ
  w15 : ℝ
  w16 : ℝ
  target_retention : ℝ

/-- Source: `FSRSParams::new` with `DEFAULT_W` and target retention 0.9. -/
def FSRSParams.new : FSRSParams where
  w0 := 0.5701
  w1 := 1.4436
  w2 := 4.1386
  w3 := 10.9355
  w4 := 5.1443
  w5 := 1.2006
  w6 := 0.8627
  w7 := 0.0362
  w8 := 1.629
  w9 := 0.1342
  w10 := 1.0166
  w11 := 2.1174
  w12 := 0.0839
  w13 := 0.3204
  w14 := 1.4676
  w15 := 0.219
  w16 := 2.8237
  target_retention := 0.9

/-- Source: `struct FSRSState` — the per-card memory state. -/
structure FSRSState where
  date_added : Date
  last_review : Date
  review_date : Date
  difficulty : ℝ
  stability : ℝ
  buried : Bool
  complete_history : Bool
  review_log : List ReviewLogItem

/-- Source: `FSRSState::new`. -/
def FSRSState.new (date : Date) : FSRSState where
  date_added := date
  last_review := date
  review_date := date
  difficulty := 0
  stability := 0
  buried := false
  complete_history := true
  review_log := []

/-- Source: `FSRSState::first_review`. -/
def FSRSState.first_review (s : FSRSState) : Bool :=
  s.complete_history && s.review_log.isEmpty

/-! ## Card data model (src/card.rs) -/

/-- Source: `struct CardContent`.  The source field `prefix` is called `pfx`
here because `prefix` is reserved in this environment. -/
structure CardContent where
  pfx : Str
  front : Str
  back : Str
  editable : Bool
  base : Option Nat
  cloze_index : Option Nat

/-- Source: `CardContent::key` — `self.prefix.to_string() + &self.front`. -/
def CardContent.key (c : CardContent) : Str := c.pfx ++ c.front

/-- Source: `enum Editable`. -/
inductive Editable where
  | Editable
  | BaseEditable
  | NotEditable
deriving DecidableEq, Repr

/-- Source: `CardContent::get_editability`. -/
def CardContent.get_editability (c : CardContent) : Editable :=
  if c.editable then Editable.Editable
  else if c.base.isSome then Editable.BaseEditable
  else Editable.NotEditable

/-- Source: `struct Card { content, fsrs_state }`. -/
structure Card where
  content : CardContent
  fsrs_state : FSRSState

/-- Identity key of a card, `(prefix, front)` collapsed to one string as in
the source `CardContent::key`. -/
def Card.key (c : Card) : Str := c.content.key

/-- Source: `struct CardCollection { base_cards, cards }`. -/
structure CardCollection where
  base_cards : List Card
  cards : List Card

/-! ## Cloze extraction (src/parsing.rs) -/

/-- Source: `enum ClozeType`.  The `Lines(LineSettings)` style and its
`next_line` iterator are not needed by any claim and are not modelled. -/
inductive ClozeType where
  | TripleBrace
  | TripleParen
deriving DecidableEq, Repr

/-- Source: `struct ClozeItem` — offsets plus the before/clozed/after
slices. -/
structure ClozeItem where
  cloze_start : Nat
  cloze_end : Nat
  before : Str
  clozed : Str
  after : Str
deriving DecidableEq, Repr

/-- Position of the first occurrence of `needle` in `hay` (source:
`str::find` with a string pattern). -/
def findSubstr (needle hay : Str) : Option Nat :=
  (List.range (hay.length + 1)).find? (fun i => needle.isPrefixOf (hay.drop i))

/-- Source: `ClozeIterator::next_brace`.  Takes the current scan cursor,
returns the next item and the advanced cursor.  Slice arithmetic mirrors the
source byte offsets. -/
def nextBrace (input : Str) (curr : Nat) : Option (ClozeItem × Nat) :=
  match findSubstr "\x7b\x7b\x7b".data (input.drop curr) with
  | none => none
  | some i =>
    let cloze_start := i + curr
    match findSubstr "\x7d\x7d\x7d".data (input.drop cloze_start) with
    | none => none
    | some j =>
      let cloze_end := j + cloze_start + 3
      let cloze_end_offset := if (input.drop (cloze_end - 4)).head? = some '\\' then 4 else 3
      some ({ cloze_start := cloze_start, cloze_end := cloze_end,
              before := input.take cloze_start,
              clozed := (input.take (cloze_end - cloze_end_offset)).drop (cloze_start + 3),
              after := input.drop cloze_end }, cloze_end)

/-- Source: `ClozeIterator::next_paren` — identical scan over `(((`/`)))`,
except that the returned `after` slice is the empty string. -/
def nextParen (input : Str) (curr : Nat) : Option (ClozeItem × Nat) :=
  match findSubstr "(((".data (input.drop curr) with
  | none => none
  | some i =>
    let cloze_start := i + curr
    match findSubstr ")))".data (input.drop cloze_start) with
    | none => none
    | some j =>
      let cloze_end := j + cloze_start + 3
      let cloze_end_offset := if (input.drop (cloze_end - 4)).head? = some '\\' then 4 else 3
      some ({ cloze_start := cloze_start, cloze_end := cloze_end,
              before := input.take cloze_start,
              clozed := (input.take (cloze_end - cloze_end_offset)).drop (cloze_start + 3),
              after := [] }, cloze_end)

/-- Source: `impl Iterator for ClozeIterator` — dispatch on the cloze
style. -/
def clozeNext (ct : ClozeType) (input : Str) (curr : Nat) : Option (ClozeItem × Nat) :=
  match ct with
  | ClozeType.TripleBrace => nextBrace input curr
  | ClozeType.TripleParen => nextParen input curr

/-- Unfolding of the cloze iterator into the list of items it yields.  The
fuel argument only bounds the number of iterations; every successful step
advances the cursor by at least three characters, so `input.length + 1`
iterations (used by `clozeItems`) can never be the binding constraint. -/
def clozeItemsAux (ct : ClozeType) (input : Str) : Nat → Nat → List ClozeItem
  | 0, _ => []
  | fuel + 1, curr =>
    match clozeNext ct input curr with
    | none => []
    | some (item, curr') => item :: clozeItemsAux ct input fuel curr'

/-- List of all spans yielded by a fresh `ClozeIterator::new` on `input`. -/
def clozeItems (ct : ClozeType) (input : Str) : List ClozeItem :=
  clozeItemsAux ct input (input.length + 1) 0

/-! ## Cloze card derivation (src/card.rs) -/

/-- Source: free function `replace_cloze` — renders a text with every cloze
marker replaced by its hidden content. -/
def replace_cloze (input : Str) (cloze_type : ClozeType) : Str :=
  match clozeItems cloze_type input with
  | [] => input
  | first :: rest =>
    let start : Str × Nat := (first.before ++ first.clozed, first.cloze_end)
    let out :=
      List.foldl
        (fun (acc : Str × Nat) (item : ClozeItem) =>
          (acc.1 ++ ((input.take item.cloze_start).drop acc.2) ++ item.clozed,
            item.cloze_end))
        start rest
    out.1 ++ input.drop out.2

/-- Source: `CardCollection::create_basic_cloze_cards` — one derived card
per span; front = original front + two newlines + rendered before-text +
placeholder + rendered after-text; back = the hidden text; `base` points at
the slot the root card is about to occupy in `base_cards`. -/
def CardCollection.create_basic_cloze_cards (coll : CardCollection) (card : Card)
    (cloze_type : ClozeType) : CardCollection :=
  let derived := (clozeItems cloze_type card.content.back).enum.map
    (fun (p : Nat × ClozeItem) =>
      { fsrs_state := FSRSState.new card.fsrs_state.date_added,
        content :=
          { pfx := card.content.pfx,
            front := card.content.front ++ "\n\n".data ++
              replace_cloze p.2.before cloze_type ++ "\x7b...\x7d".data ++
              replace_cloze p.2.after cloze_type,
            back := p.2.clozed,
            editable := false,
            base := some coll.base_cards.length,
            cloze_index := some p.1 } : Card })
  { coll with cards := coll.cards ++ derived, base_cards := coll.base_cards ++ [card] }

/-- Source: `CardCollection::create_cards` — route a raw card to cloze
expansion when its back contains a complete cloze marker pair, else keep it
as a plain reviewable card. -/
def CardCollection.create_cards (coll : CardCollection) (card : Card) : CardCollection :=
  let has_triple_braces :=
    (findSubstr "\x7b\x7b\x7b".data card.content.back).isSome &&
      (findSubstr "\x7d\x7d\x7d".data card.content.back).isSome
  let has_triple_paren :=
    (findSubstr "(((".data card.content.back).isSome &&
      (findSubstr ")))".data card.content.back).isSome
  if !has_triple_paren && !has_triple_braces then
    { coll with cards := coll.cards ++ [card] }
  else if has_triple_braces then
    coll.create_basic_cloze_cards card ClozeType.TripleBrace
  else
    coll.create_basic_cloze_cards card ClozeType.TripleParen

/-- Source: `CardCollection::from` — fold `create_cards` over the raw cards
starting from the empty collection.  The source returns `Result` but no
branch of `create_cards` can fail, so the model is total. -/
def CardCollection.from (cards : List Card) : CardCollection :=
  List.foldl CardCollection.create_cards { base_cards := [], cards := [] } cards

/-! ## TSV import (src/card.rs) -/

/-- Replace every non-overlapping occurrence of `pat` in the suffix being
scanned, left to right (source: `str::replace`).  The fuel argument only
bounds the recursion; every step consumes at least one character because the
patterns used are non-empty. -/
def replaceAllAux (pat rep : Str) : Nat → Str → Str
  | 0, s => s
  | fuel + 1, s =>
    match findSubstr pat s with
    | none => s
    | some i => s.take i ++ rep ++ replaceAllAux pat rep fuel (s.drop (i + pat.length))

/-- Source: `str::replace(pat, rep)`. -/
def replaceAll (s pat rep : Str) : Str :=
  if pat = [] then s else replaceAllAux pat rep (s.length + 1) s

/-- Source: `convert_from_singleline` — the `ESCAPED_STRINGS` substitution
table applied in reverse order with swapped sides: `\t`→tab, `\n`→newline,
`[\]t`→`\t`, `[\]n`→`\n`. -/
def convert_from_singleline (input : Str) : Str :=
  replaceAll
    (replaceAll
      (replaceAll (replaceAll input "\\t".data "\t".data) "\\n".data "\n".data)
      "[\\]t".data "\\t".data)
    "[\\]n".data "\\n".data

/-- Value of a non-empty all-digit string (helper for the integer and float
parsers below). -/
def digitsToNat (l : Str) : Option Nat :=
  if l ≠ [] ∧ l.all Char.isDigit then
    some (l.foldl (fun a c => a * 10 + (c.toNat - 48)) 0)
  else none

/-- Source: `str::parse::<iN>` — optional sign, decimal digits, failure on
overflow of the target width `[lo, hi]`. -/
def parseIntIn (l : Str) (lo hi : Int) : Option Int :=
  match l with
  | '-' :: rest =>
    (digitsToNat rest).bind
      (fun n => if lo ≤ -(n : Int) ∧ -(n : Int) ≤ hi then some (-(n : Int)) else none)
  | '+' :: rest =>
    (digitsToNat rest).bind
      (fun n => if lo ≤ (n : Int) ∧ (n : Int) ≤ hi then some (n : Int) else none)
  | _ =>
    (digitsToNat l).bind
      (fun n => if lo ≤ (n : Int) ∧ (n : Int) ≤ hi then some (n : Int) else none)

/-- Source: `str::parse::<i32>`. -/
def parseI32 (l : Str) : Option Int := parseIntIn l (-(2^31)) (2^31 - 1)

/-- Source: `str::parse::<i64>`. -/
def parseI64 (l : Str) : Option Int := parseIntIn l (-(2^63)) (2^63 - 1)

/-- Plain decimal mantissa `digits[.digits]` as an exact rational. -/
def parseDecimal (l : Str) : Option ℚ :=
  match l.splitOn '.' with
  | [intPart] => (digitsToNat intPart).map (fun n => (n : ℚ))
  | [intPart, fracPart] =>
    (digitsToNat intPart).bind (fun a =>
      (digitsToNat fracPart).map (fun b =>
        (a : ℚ) + (b : ℚ) / (10 : ℚ)^fracPart.length))
  | _ => none

/-- Source: `str::parse::<f64>`, restricted to the plain signed decimal
forms the exporter emits; the parsed value is kept as an exact real.  The
exponent/inf/nan forms of the full Rust grammar and the rounding to binary64
are not modelled — no claim depends on the numeric value parsed here. -/
noncomputable def parseF64 (l : Str) : Option ℝ :=
  match l with
  | '-' :: rest => (parseDecimal rest).map (fun q => -((q : ℚ) : ℝ))
  | _ => (parseDecimal l).map (fun q => ((q : ℚ) : ℝ))

/-- Source: `str::parse::<bool>`. -/
def parseBool (l : Str) : Option Bool :=
  if l = "true".data then some true
  else if l = "false".data then some false
  else none

/-- Source: `str::split_terminator('\t')` — split on tabs, dropping the one
empty trailing piece a trailing separator (or empty input) would produce. -/
def split_terminator (l : Str) (c : Char) : List Str :=
  let parts := l.splitOn c
  if parts.getLast? = some [] then parts.dropLast else parts

/-- Source: `CardContent::new`. -/
def CardContent.new : CardContent where
  pfx := []
  front := []
  back := []
  editable := true
  base := none
  cloze_index := none

/-- Source: `Card::new` — default content plus `FSRSState::new(Date { day: 1 })`. -/
def Card.new : Card where
  content := CardContent.new
  fsrs_state := FSRSState.new ⟨1⟩

/-- Trailing review-log fields of a TSV row, parsed in order (source: the
`while let Some(value) = iterator.next()` loop of `Card::from_tsv`; the
`ReviewLogItem::from(..).unwrap()` panic on an invalid code is modelled as
`none`). -/
def parseLogs : List Str → Option (List ReviewLogItem)
  | [] => some []
  | v :: rest =>
    (parseI64 v).bind (fun enc =>
      (ReviewLogItem.fromInt enc).bind (fun item =>
        (parseLogs rest).map (fun l => item :: l)))

/-- Source: `Card::from_tsv`.  Field order:
`days_to_review, difficulty, stability, prefix, front, back, date_added,
complete_history, last_review, [log entries...]`; every parse failure,
missing field, or day-arithmetic failure makes the import fail. -/
noncomputable def Card.from_tsv (input : Str) (current_date : Date) : Option Card :=
  match split_terminator input '\t' with
  | f0 :: f1 :: f2 :: f3 :: f4 :: f5 :: f6 :: f7 :: f8 :: rest => do
    let days_to_review ← parseI32 f0
    let review_date ← current_date.checked_add_days days_to_review
    let difficulty ← parseF64 f1
    let stability ← parseF64 f2
    let date_added_rel ← parseI32 f6
    let date_added ← current_date.checked_add_days date_added_rel
    let complete_history ← parseBool f7
    let last_review_rel ← parseI32 f8
    let last_review ← current_date.checked_add_days last_review_rel
    let log ← parseLogs rest
    some
      { content :=
          { pfx := f3,
            front := convert_from_singleline f4,
            back := convert_from_singleline f5,
            editable := Card.new.content.editable,
            base := Card.new.content.base,
            cloze_index := Card.new.content.cloze_index },
        fsrs_state :=
          { date_added := date_added,
            last_review := last_review,
            review_date := review_date,
            difficulty := difficulty,
            stability := stability,
            buried := false,
            complete_history := complete_history,
            review_log := log } }
  | _ => none

/-! ## Deck (src/deck.rs) -/

/-- Source: `struct Deck`.  The serde-skipped fields (`review_index`,
`edited_cards`, `review_indices`, `review_date`) are the transient review
session state. -/
structure Deck where
  cards : List Card
  orphans : List Card
  track_review_history : Bool
  parsing_version : Nat
  params : FSRSParams
  base_cards : List Card
  review_index : Option Nat
  edited_cards : List (Card × Card)
  review_indices : List Nat
  review_date : Option Date

/-- Source: `Deck::new` (`PARSING_VERSION` is 3 in src/cardcache.rs). -/
def Deck.new : Deck where
  cards := []
  orphans := []
  track_review_history := false
  parsing_version := 3
  params := FSRSParams.new
  base_cards := []
  review_index := none
  edited_cards := []
  review_indices := []
  review_date := none

/-- Cards emitted by `Deck::print_card_data`: the TSV export loop skips
buried cards with `continue` (the textual formatting of each emitted row is
terminal output outside this model). -/
def Deck.print_card_data_cards (d : Deck) : List Card :=
  d.cards.filter (fun c => !c.fsrs_state.buried)

/-! ## Reconciliation (src/deck.rs, `Deck::replace_cards`) -/

/-- Lexicographic order on character lists (source: `Ord for Card` compares
the `front` strings; Rust's byte-wise UTF-8 order coincides with the scalar
order used here). -/
def strLe : Str → Str → Bool
  | [], _ => true
  | _ :: _, [] => false
  | c :: cs, d :: ds => if c = d then strLe cs ds else decide (c < d)

/-- Comparison used by `self.cards.sort()`. -/
def cardLe (a b : Card) : Bool := strLe a.content.front b.content.front

/-- First entry of the map whose key matches (source: `HashMap::get`/
`contains_key`; the map is realised as an insertion-ordered association
list — no claim proved here depends on the hash iteration order of the
remaining entries). -/
def lookupKey (m : List Card) (k : Str) : Option Card :=
  m.find? (fun c => c.key = k)

/-- Removal of the entry with the given key (source: `HashMap::remove`). -/
def eraseKey : List Card → Str → List Card
  | [], _ => []
  | c :: rest, k => if c.key = k then rest else c :: eraseKey rest k

/-- Source: duplicate handling in step 1 of `replace_cards` —
`map.get_mut(&key).unwrap().content.editable = false`. -/
def demoteKey : List Card → Str → List Card
  | [], _ => []
  | c :: rest, k =>
    if c.key = k then
      { c with content := { c.content with editable := false } } :: rest
    else c :: demoteKey rest k

/-- Step 1 of `replace_cards`: build the map keyed by `(prefix, front)`;
on a duplicate key the earlier entry is kept but demoted to not-editable. -/
def buildMap (cards : List Card) : List Card :=
  cards.foldl
    (fun m card =>
      if (lookupKey m card.key).isSome then demoteKey m card.key
      else m ++ [card])
    []

/-- Step 2 of `replace_cards` (the drain loop): old cards whose key is in
the map adopt the new entry's content and keep their own `MemoryState`; the
others are orphaned.  Returns (updated cards, newly orphaned cards,
remaining map). -/
def drainOld : List Card → List Card → List Card × List Card × List Card
  | [], m => ([], [], m)
  | c :: rest, m =>
    match lookupKey m c.key with
    | some e =>
      let r := drainOld rest (eraseKey m c.key)
      ({ content := e.content, fsrs_state := c.fsrs_state } :: r.1, r.2.1, r.2.2)
    | none =>
      let r := drainOld rest m
      (r.1, c :: r.2.1, r.2.2)

/-- Removal of the first element satisfying `p` (source: the indexed scan
with `Vec::remove` in step 3 of `replace_cards`). -/
def extractFirst (p : Card → Bool) : List Card → Option (Card × List Card)
  | [] => none
  | c :: rest =>
    if p c then some (c, rest)
    else (extractFirst p rest).map (fun r => (r.1, c :: r.2))

/-- Step 3 of `replace_cards`: every map entry not consumed by the drain
searches the orphans for a matching `front` (ignoring prefix); on a hit the
orphan is removed and donates its `MemoryState`.  Returns (appended new
cards, final orphans). -/
def adoptOrphans : List Card → List Card → List Card × List Card
  | [], orphans => ([], orphans)
  | c :: rest, orphans =>
    match extractFirst (fun o => o.content.front = c.content.front) orphans with
    | some (orphan, orphans') =>
      let r := adoptOrphans rest orphans'
      ({ content := c.content, fsrs_state := orphan.fsrs_state } :: r.1, r.2)
    | none =>
      let r := adoptOrphans rest orphans
      (c :: r.1, r.2)

/-- Source: `Deck::replace_cards` — steps 1–4 of the reconciliation
algorithm (the `Result` return is always `Ok`). -/
def Deck.replace_cards (d : Deck) (collection : CardCollection) : Deck :=
  let map := buildMap collection.cards
  let dr := drainOld d.cards map
  let orphans1 := d.orphans ++ dr.2.1
  let ad := adoptOrphans dr.2.2 orphans1
  { d with
    cards := List.mergeSort (dr.1 ++ ad.1) cardLe,
    orphans := ad.2,
    base_cards := collection.base_cards }

/-! ## Memory model transitions (src/fsrs.rs) -/

/-- Source: `const FACTOR: f64 = 19.0 / 81.0`. -/
noncomputable def FACTOR : ℝ := 19 / 81

/-- Source: `const DECAY: f64 = -0.5`. -/
def DECAY : ℝ := -0.5

/-- Source: `const INV_DECAY: f64 = 1.0 / DECAY`. -/
noncomputable def INV_DECAY : ℝ := 1 / DECAY

/-- Source: `const RANDOMNESS: f64 = 0.1`. -/
def RANDOMNESS : ℝ := 0.1

/-- Source: `new_difficulty` — linear update pulled toward `w4` by `w7`,
clamped into `[1, 10]`. -/
noncomputable def new_difficulty (d g : ℝ) (params : FSRSParams) : ℝ :=
  let new_d := d - params.w6 * (g - 3)
  let new_d := params.w7 * (params.w4 - new_d) + new_d
  min (max new_d 1) 10

/-- Source: `new_stability_correct` (`E.powf x` is `Real.exp x`). -/
noncomputable def new_stability_correct (difficulty stability retention : ℝ)
    (answer : ReviewAnswer) (params : FSRSParams) : ℝ :=
  let hard_penalty := if answer = ReviewAnswer.Hard then params.w15 else 1
  let easy_bonus := if answer = ReviewAnswer.Easy then params.w16 else 1
  stability *
    (Real.exp params.w8 * (11 - difficulty) * Real.rpow stability (-params.w9) *
        (Real.exp (params.w10 * (1 - retention)) - 1) * hard_penalty * easy_bonus +
      1)

/-- Source: `new_stability_incorrect`. -/
noncomputable def new_stability_incorrect (difficulty stability retention : ℝ)
    (params : FSRSParams) : ℝ :=
  params.w11 * Real.rpow difficulty (-params.w12) *
    (Real.rpow (stability + 1) params.w13 - 1) *
    Real.exp (params.w14 * (1 - retention))

/-- Source: `grade_f64` — the Bury case panics (`unexpected bury`), modelled
as `none`; it is unreachable from `review`, which handles Bury first. -/
def grade_f64 (answer : ReviewAnswer) : Option ℝ :=
  match answer with
  | ReviewAnswer.Easy => some 4
  | ReviewAnswer.Good => some 3
  | ReviewAnswer.Hard => some 2
  | ReviewAnswer.Again => some 1
  | ReviewAnswer.Bury => none

/-- Source: `power_forgetting_curve`. -/
noncomputable def power_forgetting_curve (delta_t stability : ℝ) : ℝ :=
  Real.rpow (1 + FACTOR * delta_t / stability) DECAY

/-- Source: `FSRSState::retention` — elapsed days since the last review,
floored at one. -/
noncomputable def FSRSState.retention (s : FSRSState) (date : Date) : ℝ :=
  let t : ℝ := ((date.day - s.last_review.day : Int) : ℝ)
  let t := if t ≥ 1 then t else 1
  power_forgetting_curve t s.stability

/-- Source: `FSRSState::interval` — `(...).max(1.0)`. -/
noncomputable def FSRSState.interval (s : FSRSState) (params : FSRSParams) : ℝ :=
  max (s.stability / FACTOR * (Real.rpow params.target_retention INV_DECAY - 1)) 1

/-- Rust `f64::round` — round half away from zero. -/
noncomputable def rustRound (x : ℝ) : Int :=
  if x ≥ 0 then ⌊x + 1 / 2⌋ else -⌊-x + 1 / 2⌋

/-- Rust `as i32` on a mathematical `f64` integer value — saturating cast. -/
def satI32 (x : Int) : Int := max (-(2^31)) (min (2^31 - 1) x)

/-- Source: `FSRSState::update_review_success` — jittered interval rounded
to days (`as i32` saturates), `last_review` set to the review date, due date
`date + days` (`checked_add_days(..).unwrap()` panics on `i32` overflow,
modelled as `none`). -/
noncomputable def FSRSState.update_review_success (s : FSRSState) (date : Date)
    (fraction : ℝ) (params : FSRSParams) : Option FSRSState :=
  let days := satI32 (rustRound (s.interval params * fraction))
  match date.checked_add_days days with
  | none => none
  | some rd => some { s with last_review := date, review_date := rd }

/-- Source: `FSRSState::update_review_failure` — due immediately again. -/
def FSRSState.update_review_failure (s : FSRSState) (date : Date) : FSRSState :=
  { s with review_date := date, last_review := date }

/-- Source: `FSRSState::handle_initial_review` — outcome-specific constants
from `params`, then success/failure scheduling; the Bury case panics in the
source (unreachable from `review`). -/
noncomputable def FSRSState.handle_initial_review (s : FSRSState)
    (answer : ReviewAnswer) (date : Date) (fraction : ℝ) (params : FSRSParams) :
    Option (FSRSState × ReviewResult) :=
  match answer with
  | ReviewAnswer.Easy =>
    let s := { s with stability := params.w3, difficulty := params.w4 - params.w5 }
    (s.update_review_success date fraction params).map (fun s' => (s', ReviewResult.Discard))
  | ReviewAnswer.Good =>
    let s := { s with stability := params.w2, difficulty := params.w4 }
    (s.update_review_success date fraction params).map (fun s' => (s', ReviewResult.Discard))
  | ReviewAnswer.Hard =>
    let s := { s with stability := params.w1, difficulty := params.w4 + params.w5 }
    (s.update_review_success date fraction params).map (fun s' => (s', ReviewResult.Discard))
  | ReviewAnswer.Again =>
    let s := { s with stability := params.w0, difficulty := params.w4 + params.w5 * 2 }
    some (s.update_review_failure date, ReviewResult.Again)
  | ReviewAnswer.Bury => none

/-- Source: `FSRSState::review` — the review state machine: Bury short
circuit, history tracking, initial-review dispatch, then the
incorrect/correct stability and difficulty updates with failure/success
scheduling. -/
noncomputable def FSRSState.review (s : FSRSState) (answer : ReviewAnswer)
    (date : Date) (track_history : Bool) (fraction : ℝ) (params : FSRSParams) :
    Option (FSRSState × ReviewResult) :=
  if answer = ReviewAnswer.Bury then
    some ({ s with buried := true }, ReviewResult.Discard)
  else
    let first_review := s.first_review
    let s :=
      if track_history then { s with review_log := s.review_log ++ [⟨answer, date⟩] }
      else { s with complete_history := false }
    if first_review then
      s.handle_initial_review answer date fraction params
    else if answer = ReviewAnswer.Again then
      let retention := s.retention date
      let s := { s with
        stability := new_stability_incorrect s.difficulty s.stability retention params }
      match grade_f64 answer with
      | none => none
      | some g =>
        let s := { s with difficulty := new_difficulty s.difficulty g params }
        some (s.update_review_failure date, ReviewResult.Again)
    else
      let retention := s.retention date
      let s := { s with
        stability := new_stability_correct s.difficulty s.stability retention answer params }
      match grade_f64 answer with
      | none => none
      | some g =>
        let s := { s with difficulty := new_difficulty s.difficulty g params }
        (s.update_review_success date fraction params).map
          (fun s' => (s', ReviewResult.Discard))

/-- Source: `FSRSState::review_with_rng` — draw the jitter fraction
uniformly from `[1 - RANDOMNESS, 1 + RANDOMNESS)` and review with it.  The
pair carries the advanced generator. -/
noncomputable def FSRSState.review_with_rng (s : FSRSState) (answer : ReviewAnswer)
    (date : Date) (track_history : Bool) (g : SplitMix64) (params : FSRSParams) :
    Option (FSRSState × ReviewResult) × SplitMix64 :=
  let fr := g.next_float (1 - RANDOMNESS) (1 + RANDOMNESS)
  (s.review answer date track_history fr.1 params, fr.2)

/-! ## Review session (src/deck.rs) -/

/-- Source: free function `get_indices_to_review` — indices of the
non-buried cards due today or earlier. -/
def get_indices_to_review (cards : List Card) (date : Date) : List Nat :=
  (List.range cards.length).filter (fun i =>
    match cards.get? i with
    | some card => date.is_after card.fsrs_state.review_date && !card.fsrs_state.buried
    | none => false)

/-- Source: `Deck::gen_review_index`.  The source `while` loop adds one
(mod the count) to a colliding index; with at least two indices a single
increment always escapes the collision, so the loop body runs at most once
and the conditional below is an exact model. -/
def Deck.gen_review_index (d : Deck) (g : SplitMix64) : Deck × SplitMix64 :=
  let count := d.review_indices.length
  if count = 0 then ({ d with review_index := none }, g)
  else if count = 1 then ({ d with review_index := some 0 }, g)
  else
    let zg := g.next_rand
    let new_index := zg.1 % count
    let new_index :=
      match d.review_index with
      | some prev => if new_index = prev then (new_index + 1) % count else new_index
      | none => new_index
    ({ d with review_index := some new_index }, zg.2)

/-- Source: `Deck::card_review_offset` — counts of cards due on the given
day, the day before and the day after; shift one day earlier on a local
maximum, one day later when both neighbours are lighter ahead. -/
def Deck.card_review_offset (d : Deck) (day : Date) : Int :=
  let counts := d.cards.foldl
    (fun (acc : Nat × Nat × Nat) card =>
      if card.fsrs_state.review_date = day then (acc.1 + 1, acc.2.1, acc.2.2)
      else if card.fsrs_state.review_date.day + 1 = day.day then
        (acc.1, acc.2.1 + 1, acc.2.2)
      else if card.fsrs_state.review_date.day - 1 = day.day then
        (acc.1, acc.2.1, acc.2.2 + 1)
      else acc)
    (0, 0, 0)
  if counts.1 > counts.2.1 ∧ counts.2.2 ≥ counts.2.1 then -1
  else if counts.1 > counts.2.2 ∧ counts.2.1 > counts.2.2 then 1
  else 0

/-- Source: `Deck::review_card` — review the current card, apply the
load-balancing one-day shift on a discarded card whose new stability exceeds
2.0, drop the card from the active set on `Discard`, and draw the next
review position.  The `unwrap`/indexing panics of the source are `none`.
The `+= offset` on the due day is an `i32` addition whose overflow cannot
occur for offsets in `{-1, 0, 1}` on in-range days. -/
noncomputable def Deck.review_card (d : Deck) (answer : ReviewAnswer)
    (g : SplitMix64) : Option (Deck × SplitMix64) :=
  match d.review_index with
  | none => none
  | some review_index =>
    match d.review_indices.get? review_index with
    | none => none
    | some card_index =>
      match d.review_date with
      | none => none
      | some rdate =>
        match d.cards.get? card_index with
        | none => none
        | some card =>
          let rr := card.fsrs_state.review_with_rng answer rdate
            d.track_review_history g d.params
          match rr.1 with
          | none => none
          | some (s', result) =>
            let d := { d with
              cards := d.cards.set card_index { card with fsrs_state := s' } }
            match result with
            | ReviewResult.Discard =>
              let d :=
                if s'.stability > 2 then
                  { d with
                    cards := d.cards.set card_index
                      { card with fsrs_state :=
                          { s' with review_date :=
                              ⟨s'.review_date.day +
                                d.card_review_offset s'.review_date⟩ } } }
                else d
              let d := { d with
                review_indices := d.review_indices.eraseIdx review_index }
              some (d.gen_review_index rr.2)
            | ReviewResult.Again =>
              some (d.gen_review_index rr.2)

/-- Source: `Deck::get_review_card` — the card at the current review
position (indexing panics modelled as `none`). -/
def Deck.get_review_card (d : Deck) : Option Card :=
  match d.review_index with
  | none => none
  | some index =>
    match d.review_indices.get? index with
    | none => none
    | some card_index => d.cards.get? card_index

/-- Source: `Deck::start_review` — compute the due set, set the session
date, draw the first position. -/
def Deck.start_review (d : Deck) (date : Date) (g : SplitMix64) :
    Deck × SplitMix64 :=
  Deck.gen_review_index
    { d with review_indices := get_indices_to_review d.cards date,
             review_date := some date }
    g

/-- Session-state invariant maintained by the review loop: the active index
set never repeats an entry and the current position (when set) is in
range. -/
def SessionInv (d : Deck) : Prop :=
  d.review_indices.Nodup ∧
    ∀ p, d.review_index = some p → p < d.review_indices.length

/-- Deck-card index of the card the session currently shows (the index that
`get_review_card` dereferences). -/
def currentCardIndex (d : Deck) : Option Nat :=
  d.review_index.bind (fun p => d.review_indices.get? p)

/-! ## Day-range rescheduler (src/deck.rs, `Deck::reschedule`) -/

/-- Source: `(total_cards_for_days / days as f64).ceil() as usize`.  The
count is accumulated as an `f64` but is an exact integer; for positive
`days` the cast ceiling equals the integer ceiling division modelled here
(the counts of this program are far below the 2^53 exactness limit of
`f64`).  For `days = 0` the `f64` quotient is `inf` (or `NaN` for an empty
window), which `as usize` saturates to the maximum (resp. 0); negative
`days` give a negative quotient saturating to 0.  The claims only exercise
`days ≥ 1`. -/
def cardsPerDayOf (total : Nat) (days : Int) : Nat :=
  if 0 < days then (total + days.toNat - 1) / days.toNat
  else if days = 0 then (if total = 0 then 0 else 2^64 - 1)
  else 0

/-- Source: the inner `for i in 0..max_diff * 2 + 1` scan of `reschedule`:
try candidate days at increasing offset `-max_diff + i` from the card's due
date; place the card on the first candidate inside the window with spare
capacity.  Returns `none` on the `checked_add_days(..).unwrap()` panic,
`some none` when no candidate fits, and `some (some (card', counts'))` on
placement. -/
def reschedule_try_days (card : Card) (counts : List Nat) (cap : Nat)
    (first_day : Date) (days : Int) (maxDiff : Nat) :
    List Nat → Option (Option (Card × List Nat))
  | [] => some none
  | i :: rest =>
    match card.fsrs_state.review_date.checked_add_days (-(maxDiff : Int) + (i : Int)) with
    | none => none
    | some day =>
      let day_idx := day.day - first_day.day
      if 0 ≤ day_idx ∧ day_idx < days ∧ counts.getD day_idx.toNat 0 < cap then
        some (some
          ({ card with fsrs_state := { card.fsrs_state with review_date := day } },
            counts.set day_idx.toNat (counts.getD day_idx.toNat 0 + 1)))
      else
        reschedule_try_days card counts cap first_day days maxDiff rest

/-- Source: one evaluation of the `indices.into_iter().filter(..)` body of
the `reschedule` loop over every still-unplaced index — placed cards update
`self.cards` and the day counts and drop out; the rest are kept for the
next radius.  Panics (`get_mut(..).unwrap()`, day overflow) are `none`. -/
def reschedule_pass (cards : List Card) (counts : List Nat) (cap : Nat)
    (first_day : Date) (days : Int) (maxDiff : Nat) :
    List Nat → Option (List Card × List Nat × List Nat)
  | [] => some (cards, counts, [])
  | idx :: rest =>
    match cards.get? idx with
    | none => none
    | some card =>
      match reschedule_try_days card counts cap first_day days maxDiff
          (List.range (2 * maxDiff + 1)) with
      | none => none
      | some (some pc) =>
        reschedule_pass (cards.set idx pc.1) pc.2 cap first_day days maxDiff rest
      | some none =>
        (reschedule_pass cards counts cap first_day days maxDiff rest).map
          (fun r => (r.1, r.2.1, idx :: r.2.2))

/-- Source: the outer `loop` of `reschedule` — stop when no index is
unplaced, otherwise run a pass and grow the radius by one.  The source loop
carries no fuel; the explicit fuel here only bounds the number of
iterations, and the termination theorem shows the bound chosen by
`reschedule` is never reached, so the model agrees with the source on every
terminating run. -/
def reschedule_loop (cards : List Card) (counts : List Nat) (cap : Nat)
    (first_day : Date) (days : Int) :
    Nat → List Nat → Nat → Option (List Card)
  | 0, _, _ => none
  | fuel + 1, indices, maxDiff =>
    if indices = [] then some cards
    else
      match reschedule_pass cards counts cap first_day days maxDiff indices with
      | none => none
      | some r => reschedule_loop r.1 r.2.1 cap first_day days fuel r.2.2 (maxDiff + 1)

/-- Largest distance between a selected card's due date and the window
start (used only to size the fuel of the loop model). -/
def maxDistOf (cards : List Card) (indices : List Nat) (first_day : Date) : Nat :=
  indices.foldl
    (fun acc idx =>
      match cards.get? idx with
      | some card => max acc (card.fsrs_state.review_date.day - first_day.day).natAbs
      | none => acc)
    0

/-- Source: `Deck::reschedule` — select the non-buried cards due before the
window end, raise the caller's cap to the minimum needed to fit them, and
run the placement loop. -/
def Deck.reschedule (d : Deck) (first_day : Date) (days : Int)
    (max_cards_per_day : Nat) : Option Deck :=
  let indices := (List.range d.cards.length).filter (fun i =>
    match d.cards.get? i with
    | some card =>
        !card.fsrs_state.buried &&
          (card.fsrs_state.review_date.day - first_day.day < days)
    | none => false)
  let total := indices.length
  let cards_per_day := cardsPerDayOf total days
  let cap := max max_cards_per_day cards_per_day
  let vec_counts := List.replicate days.toNat 0
  let fuel := maxDistOf d.cards indices first_day + days.toNat + 2
  (reschedule_loop d.cards vec_counts cap first_day days fuel indices 0).map
    (fun cards' => { d with cards := cards' })

/-- Card due date inside the requested reschedule window
`[first_day, first_day + days)`. -/
def inWindow (first_day : Date) (days : Int) (c : Card) : Prop :=
  first_day.day ≤ c.fsrs_state.review_date.day ∧
    c.fsrs_state.review_date.day < first_day.day + days

/-- Relation between card lists before and after (part of) a reschedule:
any position whose card changed now holds a card due inside the window. -/
def onlyWindowChanges (first_day : Date) (days : Int) (cards cards' : List Card) : Prop :=
  ∀ i c c', cards.get? i = some c → cards'.get? i = some c' → c' ≠ c →
    inWindow first_day days c'

/-- Concrete root card of claim C4: empty prefix and front, back text
consisting of two brace-cloze spans "a" and "b" separated by a space. -/
def c4root : Card :=
  { content := { pfx := [], front := [],
                 back := "\x7b\x7b\x7ba\x7d\x7d\x7d \x7b\x7b\x7bb\x7d\x7d\x7d".data,
                 editable := true, base := none, cloze_index := none },
    fsrs_state := FSRSState.new ⟨0⟩ }

/-- Concrete root card of claim C9: back text with an escaped closing
delimiter inside the cloze span. -/
def c9root : Card :=
  { content := { pfx := [], front := [],
                 back := "\x7b\x7b\x7btest\x7d\\\x7d\x7d\x7d\x7d".data,
                 editable := true, base := none, cloze_index := none },
    fsrs_state := FSRSState.new ⟨0⟩ }

/-! ### Concrete decks and cards for counterexamples and witnesses -/

/-- C1 counterexample deck cards: two cards with the same `(prefix, front)`
key but different memory states. -/
def ceCard1 : Card :=
  { content := { pfx := [], front := "f".data, back := [],
                 editable := true, base := none, cloze_index := none },
    fsrs_state := FSRSState.new ⟨1⟩ }

/-- Second same-key card of the C1 counterexample (different `date_added`). -/
def ceCard2 : Card :=
  { content := { pfx := [], front := "f".data, back := [],
                 editable := true, base := none, cloze_index := none },
    fsrs_state := FSRSState.new ⟨2⟩ }

/-- Fresh collection card of the C1 counterexample, carrying the same key. -/
def ceNew : Card :=
  { content := { pfx := [], front := "f".data, back := "new".data,
                 editable := true, base := none, cloze_index := none },
    fsrs_state := FSRSState.new ⟨3⟩ }

/-- C1 witness card in the deck. -/
def w1 : Card :=
  { content := { pfx := [], front := "a".data, back := "old".data,
                 editable := true, base := none, cloze_index := none },
    fsrs_state := FSRSState.new ⟨7⟩ }

/-- C1 witness card in the fresh collection (same key, edited back). -/
def w1n : Card :=
  { content := { pfx := [], front := "a".data, back := "edited".data,
                 editable := true, base := none, cloze_index := none },
    fsrs_state := FSRSState.new ⟨9⟩ }

/-- C1 witness deck. -/
def wDeck : Deck := { Deck.new with cards := [w1] }

/-- C1 witness collection. -/
def wColl : CardCollection := { base_cards := [], cards := [w1n] }

/-- Memory state of the C2 counterexample card: due the day it was last
reviewed, stability above the 2.0 load-balancing threshold. -/
def ceStartState : FSRSState :=
  { date_added := ⟨0⟩, last_review := ⟨0⟩, review_date := ⟨0⟩,
    difficulty := 1, stability := 3, buried := false,
    complete_history := false, review_log := [] }

/-- C2 counterexample deck: one unburied card with `review_date =
last_review` and stability above the load-balancing threshold, mid
session. -/
def ceBuryDeck : Deck :=
  { Deck.new with
    cards := [{ content := CardContent.new, fsrs_state := ceStartState }],
    review_indices := [0],
    review_index := some 0,
    review_date := some ⟨0⟩ }

/-- C2 witness deck: a fresh unreviewed card mid session. -/
def wRevDeck : Deck :=
  { Deck.new with
    cards := [{ content := CardContent.new, fsrs_state := FSRSState.new ⟨0⟩ }],
    review_indices := [0],
    review_index := some 0,
    review_date := some ⟨0⟩ }

/-- C7 witness deck: two fresh cards, both active, position 0 current. -/
def wC7Deck : Deck :=
  { Deck.new with
    cards := [{ content := CardContent.new, fsrs_state := FSRSState.new ⟨0⟩ },
              { content := CardContent.new, fsrs_state := FSRSState.new ⟨0⟩ }],
    review_indices := [0, 1],
    review_index := some 0,
    review_date := some ⟨0⟩ }

/-- C6 witness card: fresh card due at day 0. -/
def wRescCard : Card :=
  { content := CardContent.new, fsrs_state := FSRSState.new ⟨0⟩ }

/-- C6 witness deck: a single due card at day 0. -/
def wRescDeck : Deck :=
  { Deck.new with cards := [wRescCard] }

/-! ### Claim C3 -/

lemma lor64_high_low (c d : Int) (hc0 : 0 ≤ c) (hc : c ≤ 4)
    (hd0 : 0 ≤ d) (hd : d < 2^32) :
    lor64 (shl64 c 32) d = c * 2^32 + d := by
  have hc64 : toNat64 c = c.toNat := by
    unfold toNat64; omega
  have hsh : toNat64 c <<< 32 = c.toNat * 2^32 := by
    rw [hc64, Nat.shiftLeft_eq]
  have hsmall : c.toNat * 2^32 < 2^63 := by omega
  have hshl : shl64 c 32 = (c.toNat * 2^32 : Nat) := by
    unfold shl64 toInt64
    rw [hsh]
    have : c.toNat * 2^32 % 2^64 = c.toNat * 2^32 := Nat.mod_eq_of_lt (by omega)
    simp only [this]
    rw [if_pos hsmall]
  have hlorNat : Nat.lor (c.toNat * 2^32) d.toNat = c.toNat * 2^32 + d.toNat := by
    have hb : d.toNat < 2^32 := by omega
    have := Nat.mul_add_lt_is_or hb c.toNat
    calc Nat.lor (c.toNat * 2^32) d.toNat
        = 2^32 * c.toNat ||| d.toNat := by rw [Nat.mul_comm]; rfl
      _ = c.toNat * 2^32 + d.toNat := by rw [← this]; ring
  unfold lor64
  rw [hshl]
  have h1 : toNat64 ((c.toNat * 2^32 : Nat) : Int) = c.toNat * 2^32 := by
    unfold toNat64; omega
  have h2 : toNat64 d = d.toNat := by
    unfold toNat64; omega
  rw [h1, h2, hlorNat]
  unfold toInt64
  have hmod : (c.toNat * 2^32 + d.toNat) % 2^64 = c.toNat * 2^32 + d.toNat :=
    Nat.mod_eq_of_lt (by omega)
  simp only [hmod]
  rw [if_pos (by omega)]
  omega

/-- C3 counterexample: the encode/decode round-trip fails already at day
`-1` (a value representable in the `i32` day field): the sign-extended
negative day floods the high 32 bits, decoding rejects the outcome code. -/
theorem review_log_roundtrip_fails_on_negative_day :
    (-(2^31) ≤ (-1 : Int) ∧ (-1 : Int) < 2^31) ∧
      ReviewLogItem.fromInt
          (ReviewLogItem.encode ⟨ReviewAnswer.Bury, ⟨-1⟩⟩) ≠
        some ⟨ReviewAnswer.Bury, ⟨-1⟩⟩ := by
  constructor
  · constructor <;> decide
  · decide

lemma shift_div (c d : Int) (hd0 : 0 ≤ d) (hd : d < 2^32) :
    (c * 2^32 + d) / 2^32 = c := by omega

lemma shift_mod (c d : Int) (hd0 : 0 ≤ d) (hd : d < 2^32) :
    (c * 2^32 + d) % 2^32 = d := by omega

/-- C3 (amended): encoding then decoding a review-log entry yields the
original (outcome, day) pair for every outcome and every *non-negative* day
below `2^31`; for negative days (also representable in the `Date` type) the
round-trip fails, as the counterexample shows. -/
theorem review_log_roundtrip (a : ReviewAnswer) (d : Int)
    (h0 : 0 ≤ d) (h1 : d < 2^31) :
    ReviewLogItem.fromInt (ReviewLogItem.encode ⟨a, ⟨d⟩⟩) = some ⟨a, ⟨d⟩⟩ := by
  cases a with
  | Again =>
      rw [show ReviewLogItem.encode ⟨ReviewAnswer.Again, ⟨d⟩⟩ = lor64 (shl64 1 32) d from rfl]
      rw [lor64_high_low 1 d (by norm_num) (by norm_num) h0 (by omega)]
      unfold ReviewLogItem.fromInt
      rw [shift_div 1 d h0 (by omega), shift_mod 1 d h0 (by omega)]
      norm_num
      omega
  | Hard =>
      rw [show ReviewLogItem.encode ⟨ReviewAnswer.Hard, ⟨d⟩⟩ = lor64 (shl64 2 32) d from rfl]
      rw [lor64_high_low 2 d (by norm_num) (by norm_num) h0 (by omega)]
      unfold ReviewLogItem.fromInt
      rw [shift_div 2 d h0 (by omega), shift_mod 2 d h0 (by omega)]
      norm_num
      omega
  | Good =>
      rw [show ReviewLogItem.encode ⟨ReviewAnswer.Good, ⟨d⟩⟩ = lor64 (shl64 3 32) d from rfl]
      rw [lor64_high_low 3 d (by norm_num) (by norm_num) h0 (by omega)]
      unfold ReviewLogItem.fromInt
      rw [shift_div 3 d h0 (by omega), shift_mod 3 d h0 (by omega)]
      norm_num
      omega
  | Easy =>
      rw [show ReviewLogItem.encode ⟨ReviewAnswer.Easy, ⟨d⟩⟩ = lor64 (shl64 4 32) d from rfl]
      rw [lor64_high_low 4 d (by norm_num) (by norm_num) h0 (by omega)]
      unfold ReviewLogItem.fromInt
      rw [shift_div 4 d h0 (by omega), shift_mod 4 d h0 (by omega)]
      norm_num
      omega
  | Bury =>
      rw [show ReviewLogItem.encode ⟨ReviewAnswer.Bury, ⟨d⟩⟩ = lor64 (shl64 0 32) d from rfl]
      rw [lor64_high_low 0 d (by norm_num) (by norm_num) h0 (by omega)]
      unfold ReviewLogItem.fromInt
      rw [shift_div 0 d h0 (by omega), shift_mod 0 d h0 (by omega)]
      norm_num
      omega

/-- C3 witness: the round-trip theorem applied at the concrete entry
(Good, day 5). -/
theorem review_log_roundtrip_witness :
    (0 ≤ (5 : Int) ∧ (5 : Int) < 2^31) ∧
      ReviewLogItem.fromInt (ReviewLogItem.encode ⟨ReviewAnswer.Good, ⟨5⟩⟩) =
        some ⟨ReviewAnswer.Good, ⟨5⟩⟩ :=
  ⟨⟨by decide, by decide⟩, review_log_roundtrip ReviewAnswer.Good 5 (by decide) (by decide)⟩

/-! ### Claim C8 -/

lemma nextBrace_spec (input : Str) (curr : Nat) (it : ClozeItem) (k : Nat)
    (h : nextBrace input curr = some (it, k)) :
    it.before = input.take it.cloze_start ∧ it.after = input.drop it.cloze_end := by
  unfold nextBrace at h
  split at h
  · exact Option.noConfusion h
  · dsimp only at h
    split at h
    · exact Option.noConfusion h
    · simp only [Option.some.injEq, Prod.mk.injEq] at h
      obtain ⟨h1, _⟩ := h
      subst h1
      exact ⟨rfl, rfl⟩

lemma nextParen_spec (input : Str) (curr : Nat) (it : ClozeItem) (k : Nat)
    (h : nextParen input curr = some (it, k)) :
    it.before = input.take it.cloze_start ∧ it.after = ([] : Str) := by
  unfold nextParen at h
  split at h
  · exact Option.noConfusion h
  · dsimp only at h
    split at h
    · exact Option.noConfusion h
    · simp only [Option.some.injEq, Prod.mk.injEq] at h
      obtain ⟨h1, _⟩ := h
      subst h1
      exact ⟨rfl, rfl⟩

lemma clozeItemsAux_brace_spec (input : Str) :
    ∀ (fuel curr : Nat) (it : ClozeItem),
      it ∈ clozeItemsAux ClozeType.TripleBrace input fuel curr →
        it.before = input.take it.cloze_start ∧ it.after = input.drop it.cloze_end := by
  intro fuel
  induction fuel with
  | zero =>
      intro curr it h
      simp [clozeItemsAux] at h
  | succ n ih =>
      intro curr it h
      rcases hn : clozeNext ClozeType.TripleBrace input curr with _ | ⟨item, k⟩
      · rw [clozeItemsAux, hn] at h
        simp at h
      · rw [clozeItemsAux, hn] at h
        rcases List.mem_cons.mp h with h | h
        · subst h
          exact nextBrace_spec input curr it k hn
        · exact ih k it h

lemma clozeItemsAux_paren_spec (input : Str) :
    ∀ (fuel curr : Nat) (it : ClozeItem),
      it ∈ clozeItemsAux ClozeType.TripleParen input fuel curr →
        it.before = input.take it.cloze_start ∧ it.after = ([] : Str) := by
  intro fuel
  induction fuel with
  | zero =>
      intro curr it h
      simp [clozeItemsAux] at h
  | succ n ih =>
      intro curr it h
      rcases hn : clozeNext ClozeType.TripleParen input curr with _ | ⟨item, k⟩
      · rw [clozeItemsAux, hn] at h
        simp at h
      · rw [clozeItemsAux, hn] at h
        rcases List.mem_cons.mp h with h | h
        · subst h
          exact nextParen_spec input curr it k hn
        · exact ih k it h

/-- C8 counterexample: for the triple-paren style the claim fails — on the
input `"(((a))) b"` the single span's after-text is empty rather than the
suffix `" b"` that follows the matched closing delimiter. -/
theorem paren_after_text_not_suffix :
    (clozeItems ClozeType.TripleParen "(((a))) b".data).map
        (fun it => (it.after, "(((a))) b".data.drop it.cloze_end)) =
      [(([] : Str), " b".data)] ∧ ([] : Str) ≠ " b".data := by
  constructor
  · decide
  · decide

/-- C8 (amended): every span yielded by the triple-brace cloze iterator
exposes as before-text the prefix preceding the opening delimiter and as
after-text exactly the suffix following the matched closing delimiter; for
the triple-paren style the before-text is that prefix as well, but the
after-text is always the empty string (not the suffix, as the
counterexample shows). -/
theorem cloze_spans_before_after :
    (∀ (input : Str) (it : ClozeItem),
        it ∈ clozeItems ClozeType.TripleBrace input →
          it.before = input.take it.cloze_start ∧
            it.after = input.drop it.cloze_end) ∧
      (∀ (input : Str) (it : ClozeItem),
        it ∈ clozeItems ClozeType.TripleParen input →
          it.before = input.take it.cloze_start ∧ it.after = ([] : Str)) := by
  constructor
  · intro input it h
    exact clozeItemsAux_brace_spec input (input.length + 1) 0 it h
  · intro input it h
    exact clozeItemsAux_paren_spec input (input.length + 1) 0 it h

/-- C8 witness: the span theorem applied to the concrete brace input
`"x{{{a}}}y"` and the concrete paren input `"(((q))) z"`. -/
theorem cloze_spans_before_after_witness :
    ((⟨1, 8, "x".data, "a".data, "y".data⟩ : ClozeItem) ∈
        clozeItems ClozeType.TripleBrace "x\x7b\x7b\x7ba\x7d\x7d\x7dy".data) ∧
      ("x".data = "x\x7b\x7b\x7ba\x7d\x7d\x7dy".data.take 1 ∧
        "y".data = "x\x7b\x7b\x7ba\x7d\x7d\x7dy".data.drop 8) ∧
      ((⟨0, 7, [], "q".data, []⟩ : ClozeItem) ∈
        clozeItems ClozeType.TripleParen "(((q))) z".data) ∧
      ([] : Str) = ([] : Str) := by
  refine ⟨by decide, ?_, by decide, ?_⟩
  · have h := cloze_spans_before_after.1 "x\x7b\x7b\x7ba\x7d\x7d\x7dy".data
      ⟨1, 8, "x".data, "a".data, "y".data⟩ (by decide)
    exact h
  · exact (cloze_spans_before_after.2 "(((q))) z".data
      ⟨0, 7, [], "q".data, []⟩ (by decide)).2

/-! ### Claim C4 -/

/-- C4: building a collection from the single root card with empty front and
back `"{{{a}}} {{{b}}}"` yields exactly two derived cards with fronts
`"\n\n{...} b"` and `"\n\na {...}"` (sibling markers rendered as their
hidden content), backs `"a"` and `"b"`, both `base` links pointing at slot 0
of `base_cards`, which holds exactly the root. -/
theorem basic_cloze_derivation_two_spans :
    (CardCollection.from [c4root]).cards.length = 2 ∧
      ((CardCollection.from [c4root]).cards.map (fun c => c.content.front)) =
        ["\n\n\x7b...\x7d b".data, "\n\na \x7b...\x7d".data] ∧
      ((CardCollection.from [c4root]).cards.map (fun c => c.content.back)) =
        ["a".data, "b".data] ∧
      ((CardCollection.from [c4root]).cards.map (fun c => c.content.base)) =
        [some 0, some 0] ∧
      (CardCollection.from [c4root]).base_cards = [c4root] :=
  ⟨by decide, by decide, by decide, by decide, rfl⟩

/-! ### Claim C9 -/

/-- C9: the root card whose back text is `"{{{test}\}}}}"` derives exactly
one card, and that card's hidden text (its back) is `"test}"` — the escaped
closing delimiter is kept literally minus the escape character. -/
theorem escaped_delimiter_cloze :
    (CardCollection.from [c9root]).cards.length = 1 ∧
      ((CardCollection.from [c9root]).cards.map (fun c => c.content.back)) =
        ["test\x7d".data] :=
  ⟨by decide, by decide⟩

/-! ### Claim C10 -/

/-- C10: the TSV row format carries no buried field — every card accepted by
`Card::from_tsv` comes back with `buried = false`, so bury status can never
be restored through TSV import; and the TSV export of `print_card_data`
skips buried cards entirely. -/
theorem from_tsv_never_buried :
    (∀ (input : Str) (d : Date) (c : Card),
        Card.from_tsv input d = some c → c.fsrs_state.buried = false) ∧
      (∀ (d : Deck) (c : Card),
        c ∈ d.print_card_data_cards → c.fsrs_state.buried = false) := by
  constructor
  · intro input d c h
    unfold Card.from_tsv at h
    split at h
    · simp only [bind, Option.bind_eq_some] at h
      obtain ⟨v0, -, v1, -, v2, -, v3, -, v4, -, v5, -, v6, -, v7, -, v8, -, v9, -, hc⟩ := h
      injection hc with hc
      subst hc
      rfl
    · exact Option.noConfusion h
  · intro d c h
    have hb := (List.mem_filter.mp h).2
    simpa using hb

/-- C10 witness: a concrete accepted row, the import theorem applied to it,
and the export filter applied to a one-card deck. -/
theorem from_tsv_never_buried_witness :
    (∃ c, Card.from_tsv "0\t1\t1\tp\tf\tb\t0\ttrue\t0".data ⟨0⟩ = some c ∧
        c.fsrs_state.buried = false) ∧
      (Card.new ∈ Deck.print_card_data_cards { Deck.new with cards := [Card.new] } ∧
        Card.new.fsrs_state.buried = false) := by
  constructor
  · have hs : (Card.from_tsv "0\t1\t1\tp\tf\tb\t0\ttrue\t0".data ⟨0⟩).isSome = true := rfl
    refine ⟨(Card.from_tsv "0\t1\t1\tp\tf\tb\t0\ttrue\t0".data ⟨0⟩).get hs,
      (Option.some_get hs).symm, ?_⟩
    exact from_tsv_never_buried.1 _ _ _ (Option.some_get hs).symm
  · have hm : Card.new ∈ Deck.print_card_data_cards { Deck.new with cards := [Card.new] } :=
      List.mem_filter.mpr ⟨List.mem_singleton.mpr rfl, rfl⟩
    exact ⟨hm, from_tsv_never_buried.2 _ _ hm⟩

/-! ### Reconciliation lemmas (claims C1, C5) -/

lemma demoteKey_map_key (m : List Card) (k : Str) :
    (demoteKey m k).map Card.key = m.map Card.key := by
  induction m with
  | nil => rfl
  | cons c rest ih =>
      unfold demoteKey
      split
      · simp [Card.key, CardContent.key]
      · simp [ih]

lemma lookupKey_eq_none (m : List Card) (k : Str) :
    lookupKey m k = none ↔ k ∉ m.map Card.key := by
  unfold lookupKey
  rw [List.find?_eq_none]
  constructor
  · intro h hk
    obtain ⟨c, hc, hkey⟩ := List.mem_map.mp hk
    exact (h c hc) (by simp [hkey])
  · intro h c hc hb
    exact h (List.mem_map.mpr ⟨c, hc, of_decide_eq_true hb⟩)

lemma buildMap_key_nodup (cards : List Card) :
    ((buildMap cards).map Card.key).Nodup := by
  have gen : ∀ (l : List Card) (m : List Card), (m.map Card.key).Nodup →
      ((l.foldl
        (fun m card =>
          if (lookupKey m card.key).isSome then demoteKey m card.key
          else m ++ [card]) m).map Card.key).Nodup := by
    intro l
    induction l with
    | nil => intro m hm; simpa using hm
    | cons c rest ih =>
        intro m hm
        simp only [List.foldl_cons]
        by_cases hk : (lookupKey m c.key).isSome
        · rw [if_pos hk]
          exact ih _ (by rw [demoteKey_map_key]; exact hm)
        · rw [if_neg hk]
          refine ih _ ?_
          rw [List.map_append]
          refine List.Nodup.append hm (by simp) ?_
          intro k hk1 hk2
          simp only [List.map_cons, List.map_nil, List.mem_singleton] at hk2
          subst hk2
          have : lookupKey m c.key = none := by
            cases hlv : lookupKey m c.key with
            | none => rfl
            | some v => rw [hlv] at hk; simp at hk
          exact ((lookupKey_eq_none m c.key).mp this) hk1
  exact gen cards [] (by simp)

lemma lookupKey_erase_ne (m : List Card) (k k' : Str) (h : k ≠ k') :
    lookupKey (eraseKey m k') k = lookupKey m k := by
  induction m with
  | nil => rfl
  | cons c rest ih =>
      unfold eraseKey
      split
      · rename_i hck
        unfold lookupKey
        rw [List.find?_cons_of_neg]
        simp [hck, h.symm]
      · rename_i hck
        unfold lookupKey at ih ⊢
        by_cases hc : c.key = k
        · rw [List.find?_cons_of_pos, List.find?_cons_of_pos] <;> simp [hc]
        · rw [List.find?_cons_of_neg _ (by simp [hc]), List.find?_cons_of_neg _ (by simp [hc])]
          exact ih

lemma mem_eraseKey (m : List Card) (k : Str) (x : Card) (h : x ∈ eraseKey m k) :
    x ∈ m := by
  induction m with
  | nil => simp [eraseKey] at h
  | cons c rest ih =>
      unfold eraseKey at h
      split at h
      · exact List.mem_cons_of_mem c h
      · rcases List.mem_cons.mp h with h | h
        · exact h ▸ List.mem_cons_self c rest
        · exact List.mem_cons_of_mem c (ih h)

lemma eraseKey_map_key_sublist (m : List Card) (k : Str) :
    ((eraseKey m k).map Card.key).Sublist (m.map Card.key) := by
  induction m with
  | nil => simp [eraseKey]
  | cons c rest ih =>
      unfold eraseKey
      split
      · simp [List.sublist_cons_self]
      · simpa using List.Sublist.cons₂ c.key ih

lemma mem_eraseKey_key_ne (m : List Card) (k : Str) (x : Card)
    (hm : (m.map Card.key).Nodup) (h : x ∈ eraseKey m k) : x.key ≠ k := by
  induction m with
  | nil => simp [eraseKey] at h
  | cons c rest ih =>
      unfold eraseKey at h
      rw [List.map_cons, List.nodup_cons] at hm
      split at h
      · rename_i hck
        intro hxk
        have hx : x.key ∈ rest.map Card.key := List.mem_map.mpr ⟨x, h, rfl⟩
        rw [hxk, ← hck] at hx
        exact hm.1 hx
      · rename_i hck
        rcases List.mem_cons.mp h with h | h
        · subst h
          exact hck
        · exact ih hm.2 h

lemma lookupKey_isSome_of_mem (m : List Card) (c : Card) (h : c ∈ m) :
    (lookupKey m c.key).isSome := by
  unfold lookupKey
  rw [List.find?_isSome]
  exact ⟨c, h, by simp⟩

lemma drainOld_mem_updated (old : List Card) :
    ∀ (m : List Card) (c : Card) (e : Card),
      (old.map Card.key).Nodup → c ∈ old → lookupKey m c.key = some e →
        ({ content := e.content, fsrs_state := c.fsrs_state } : Card) ∈
          (drainOld old m).1 := by
  induction old with
  | nil => intro m c e _ hc; exact absurd hc (List.not_mem_nil c)
  | cons c0 rest ih =>
      intro m c e hnd hc he
      rw [List.map_cons, List.nodup_cons] at hnd
      rcases List.mem_cons.mp hc with h | h
      · subst h
        unfold drainOld
        rw [he]
        exact List.mem_cons_self _ _
      · have hne : c.key ≠ c0.key := by
          intro hkeq
          exact hnd.1 (hkeq ▸ List.mem_map.mpr ⟨c, h, rfl⟩)
        unfold drainOld
        cases h0 : lookupKey m c0.key with
        | some e0 =>
            refine List.mem_cons_of_mem _ ?_
            refine ih (eraseKey m c0.key) c e hnd.2 h ?_
            rw [lookupKey_erase_ne m c.key c0.key hne]
            exact he
        | none =>
            exact ih m c e hnd.2 h he

lemma drainOld_orphan_char (old : List Card) :
    ∀ (m : List Card) (o : Card),
      (old.map Card.key).Nodup → o ∈ (drainOld old m).2.1 →
        o ∈ old ∧ lookupKey m o.key = none := by
  induction old with
  | nil => intro m o _ ho; simp [drainOld] at ho
  | cons c0 rest ih =>
      intro m o hnd ho
      rw [List.map_cons, List.nodup_cons] at hnd
      unfold drainOld at ho
      cases h0 : lookupKey m c0.key with
      | some e0 =>
          rw [h0] at ho
          obtain ⟨ho1, ho2⟩ := ih (eraseKey m c0.key) o hnd.2 ho
          have hne : o.key ≠ c0.key := by
            intro hkeq
            exact hnd.1 (hkeq ▸ List.mem_map.mpr ⟨o, ho1, rfl⟩)
          refine ⟨List.mem_cons_of_mem c0 ho1, ?_⟩
          rw [← lookupKey_erase_ne m o.key c0.key hne]
          exact ho2
      | none =>
          rw [h0] at ho
          rcases List.mem_cons.mp ho with h | h
          · subst h
            exact ⟨List.mem_cons_self _ _, h0⟩
          · obtain ⟨ho1, ho2⟩ := ih m o hnd.2 h
            exact ⟨List.mem_cons_of_mem c0 ho1, ho2⟩

lemma extractFirst_subset (p : Card → Bool) (l : List Card) (x : Card)
    (l' : List Card) (h : extractFirst p l = some (x, l')) :
    ∀ y ∈ l', y ∈ l := by
  induction l generalizing l' with
  | nil => simp [extractFirst] at h
  | cons c rest ih =>
      unfold extractFirst at h
      split at h
      · simp only [Option.some.injEq, Prod.mk.injEq] at h
        obtain ⟨-, h2⟩ := h
        subst h2
        exact fun y hy => List.mem_cons_of_mem c hy
      · cases he : extractFirst p rest with
        | none => rw [he] at h; exact Option.noConfusion h
        | some r =>
            rw [he] at h
            simp only [Option.map_some', Option.some.injEq, Prod.mk.injEq] at h
            obtain ⟨h1, h2⟩ := h
            subst h2
            intro y hy
            rcases List.mem_cons.mp hy with hy | hy
            · exact hy ▸ List.mem_cons_self c rest
            · exact List.mem_cons_of_mem c (ih r.2 (h1 ▸ he) y hy)

lemma adoptOrphans_orphans_subset (l : List Card) :
    ∀ (orphans : List Card) (o : Card),
      o ∈ (adoptOrphans l orphans).2 → o ∈ orphans := by
  induction l with
  | nil => intro orphans o h; exact h
  | cons c rest ih =>
      intro orphans o h
      unfold adoptOrphans at h
      cases he : extractFirst (fun o => o.content.front = c.content.front) orphans with
      | some r =>
          rw [he] at h
          exact extractFirst_subset _ orphans r.1 r.2 (by rw [he]) o (ih r.2 o h)
      | none =>
          rw [he] at h
          exact ih orphans o h

/-- C1 counterexample: with two same-key cards in the deck and that key
present in the fresh collection, the second old card is moved to orphans
even though its key occurs in the collection — the claim's universal
statement fails on decks with duplicate keys. -/
theorem replace_cards_orphans_duplicate_key :
    (lookupKey (buildMap [ceNew]) ceCard2.key).isSome = true ∧
      (Deck.replace_cards { Deck.new with cards := [ceCard1, ceCard2] }
          { base_cards := [], cards := [ceNew] }).orphans = [ceCard2] :=
  ⟨rfl, rfl⟩

/-- C1 (amended): in `Deck::replace_cards`, provided the old deck cards have
pairwise distinct `(prefix, front)` keys (as every deck produced by
`replace_cards` itself does), every old card whose key occurs in the fresh
collection's map yields a resulting card carrying the map entry's content
together with the old card's entire `MemoryState` (in particular its
`date_added` and `stability`), and no old card with a matching key is moved
to orphans: every final orphan either pre-existed or had no key in the map. -/
theorem replace_cards_preserves_matched (d : Deck) (coll : CardCollection)
    (hnd : (d.cards.map Card.key).Nodup)
    (c : Card) (hc : c ∈ d.cards)
    (e : Card) (he : lookupKey (buildMap coll.cards) c.key = some e) :
    ({ content := e.content, fsrs_state := c.fsrs_state } : Card) ∈
        (d.replace_cards coll).cards ∧
      ∀ o ∈ (d.replace_cards coll).orphans,
        o ∈ d.orphans ∨ (o ∈ d.cards ∧ lookupKey (buildMap coll.cards) o.key = none) := by
  constructor
  · show _ ∈ List.mergeSort _ cardLe
    rw [List.mem_mergeSort]
    refine List.mem_append.mpr (Or.inl ?_)
    exact drainOld_mem_updated d.cards (buildMap coll.cards) c e hnd hc he
  · intro o ho
    have ho1 : o ∈ d.orphans ++ (drainOld d.cards (buildMap coll.cards)).2.1 :=
      adoptOrphans_orphans_subset _ _ o ho
    rcases List.mem_append.mp ho1 with h | h
    · exact Or.inl h
    · exact Or.inr (drainOld_orphan_char d.cards (buildMap coll.cards) o hnd h)

/-- C1 witness: the amended theorem applied to a concrete one-card deck and
a same-key collection; the resulting card keeps `w1`'s memory state under
`w1n`'s content. -/
theorem replace_cards_preserves_matched_witness :
    (wDeck.cards.map Card.key).Nodup ∧ w1 ∈ wDeck.cards ∧
      lookupKey (buildMap wColl.cards) w1.key = some w1n ∧
      ({ content := w1n.content, fsrs_state := w1.fsrs_state } : Card) ∈
        (wDeck.replace_cards wColl).cards := by
  have hnd : (wDeck.cards.map Card.key).Nodup := by decide
  have hm : w1 ∈ wDeck.cards := List.mem_singleton.mpr rfl
  have hl : lookupKey (buildMap wColl.cards) w1.key = some w1n := rfl
  exact ⟨hnd, hm, hl,
    (replace_cards_preserves_matched wDeck wColl hnd w1 hm w1n hl).1⟩

lemma adoptOrphans_nil_orphans (l : List Card) : adoptOrphans l [] = (l, []) := by
  induction l with
  | nil => rfl
  | cons c rest ih =>
      unfold adoptOrphans
      rw [show extractFirst (fun o => o.content.front = c.content.front) [] = none from rfl]
      simp [ih]

lemma drainOld_consumes (old : List Card) :
    ∀ (m : List Card),
      (old.map Card.key).Nodup →
      (m.map Card.key).Nodup →
      (∀ c ∈ old, (lookupKey m c.key).isSome) →
      (∀ e ∈ m, e.key ∈ old.map Card.key) →
      (drainOld old m).1.length = old.length ∧
        (drainOld old m).2.1 = [] ∧ (drainOld old m).2.2 = [] := by
  induction old with
  | nil =>
      intro m _ _ _ h4
      have hm : m = [] := by
        cases m with
        | nil => rfl
        | cons e rest => exact absurd (h4 e (List.mem_cons_self e rest)) (by simp)
      subst hm
      exact ⟨rfl, rfl, rfl⟩
  | cons c0 rest ih =>
      intro m h1 h2 h3 h4
      rw [List.map_cons, List.nodup_cons] at h1
      have hs := h3 c0 (List.mem_cons_self c0 rest)
      cases h0 : lookupKey m c0.key with
      | none => rw [h0] at hs; exact absurd hs (by simp)
      | some e0 =>
          unfold drainOld
          rw [h0]
          have h2' : ((eraseKey m c0.key).map Card.key).Nodup :=
            h2.sublist (eraseKey_map_key_sublist m c0.key)
          have h3' : ∀ c ∈ rest, (lookupKey (eraseKey m c0.key) c.key).isSome := by
            intro c hc
            have hne : c.key ≠ c0.key := fun hkeq =>
              h1.1 (hkeq ▸ List.mem_map.mpr ⟨c, hc, rfl⟩)
            rw [lookupKey_erase_ne m c.key c0.key hne]
            exact h3 c (List.mem_cons_of_mem c0 hc)
          have h4' : ∀ e ∈ eraseKey m c0.key, e.key ∈ rest.map Card.key := by
            intro e he
            have hne := mem_eraseKey_key_ne m c0.key e h2 he
            have hmem := h4 e (mem_eraseKey m c0.key e he)
            rw [List.map_cons] at hmem
            rcases List.mem_cons.mp hmem with h | h
            · exact absurd h hne
            · exact h
          obtain ⟨hl, ho, hm⟩ := ih (eraseKey m c0.key) h1.2 h2' h3' h4'
          exact ⟨by simp [hl], ho, hm⟩

lemma replace_cards_on_empty (coll : CardCollection) :
    (Deck.new.replace_cards coll).cards =
        List.mergeSort (buildMap coll.cards) cardLe ∧
      (Deck.new.replace_cards coll).orphans = [] := by
  constructor
  · show List.mergeSort ((drainOld ([] : List Card) (buildMap coll.cards)).1 ++
        (adoptOrphans (drainOld ([] : List Card) (buildMap coll.cards)).2.2
          ([] ++ (drainOld ([] : List Card) (buildMap coll.cards)).2.1)).1) cardLe = _
    show List.mergeSort ([] ++ (adoptOrphans (buildMap coll.cards) ([] ++ [])).1) cardLe = _
    rw [show (([] : List Card) ++ ([] : List Card)) = [] from rfl, adoptOrphans_nil_orphans]
    rfl
  · show (adoptOrphans (drainOld ([] : List Card) (buildMap coll.cards)).2.2
        ([] ++ (drainOld ([] : List Card) (buildMap coll.cards)).2.1)).2 = []
    show (adoptOrphans (buildMap coll.cards) ([] ++ [])).2 = []
    rw [show (([] : List Card) ++ ([] : List Card)) = [] from rfl, adoptOrphans_nil_orphans]

/-- C5: starting from the empty deck, replacing with the same collection
twice leaves the orphans empty and the card count unchanged, for every input
collection. -/
theorem replace_cards_idempotent (coll : CardCollection) :
    ((Deck.new.replace_cards coll).replace_cards coll).orphans = [] ∧
      ((Deck.new.replace_cards coll).replace_cards coll).cards.length =
        (Deck.new.replace_cards coll).cards.length := by
  obtain ⟨h1c, h1o⟩ := replace_cards_on_empty coll
  have hMnd : ((buildMap coll.cards).map Card.key).Nodup := buildMap_key_nodup coll.cards
  have hperm : (List.mergeSort (buildMap coll.cards) cardLe).Perm (buildMap coll.cards) :=
    List.mergeSort_perm (buildMap coll.cards) cardLe
  have hpk : (((Deck.new.replace_cards coll).cards).map Card.key).Perm
      ((buildMap coll.cards).map Card.key) := by
    rw [h1c]; exact hperm.map Card.key
  have hnd1 : (((Deck.new.replace_cards coll).cards).map Card.key).Nodup :=
    hpk.nodup_iff.mpr hMnd
  have h3 : ∀ c ∈ (Deck.new.replace_cards coll).cards,
      (lookupKey (buildMap coll.cards) c.key).isSome := by
    intro c hc
    rw [h1c] at hc
    exact lookupKey_isSome_of_mem _ c (List.mem_mergeSort.mp hc)
  have h4 : ∀ e ∈ buildMap coll.cards,
      e.key ∈ ((Deck.new.replace_cards coll).cards).map Card.key := by
    intro e he
    exact hpk.mem_iff.mpr (List.mem_map.mpr ⟨e, he, rfl⟩)
  obtain ⟨hlen, horph, hmap⟩ :=
    drainOld_consumes (Deck.new.replace_cards coll).cards (buildMap coll.cards)
      hnd1 hMnd h3 h4
  constructor
  · show (adoptOrphans
        (drainOld (Deck.new.replace_cards coll).cards (buildMap coll.cards)).2.2
        ((Deck.new.replace_cards coll).orphans ++
          (drainOld (Deck.new.replace_cards coll).cards (buildMap coll.cards)).2.1)).2 = []
    rw [hmap, horph, h1o]
    rfl
  · show (List.mergeSort
        ((drainOld (Deck.new.replace_cards coll).cards (buildMap coll.cards)).1 ++
          (adoptOrphans
            (drainOld (Deck.new.replace_cards coll).cards (buildMap coll.cards)).2.2
            ((Deck.new.replace_cards coll).orphans ++
              (drainOld (Deck.new.replace_cards coll).cards (buildMap coll.cards)).2.1)).1)
        cardLe).length = _
    rw [List.length_mergeSort, hmap, horph, h1o]
    simpa using hlen

/-! ### Memory model lemmas (claims C2, C7) -/

lemma interval_ge_one (s : FSRSState) (params : FSRSParams) :
    (1:ℝ) ≤ s.interval params := le_max_right _ _

lemma update_review_success_spec (s : FSRSState) (date : Date) (fraction : ℝ)
    (params : FSRSParams) (s' : FSRSState) (hf : (0.9:ℝ) ≤ fraction)
    (h : s.update_review_success date fraction params = some s') :
    s'.last_review = date ∧ date.day + 1 ≤ s'.review_date.day := by
  unfold FSRSState.update_review_success at h
  dsimp only at h
  have hint : (1:ℝ) ≤ s.interval params := interval_ge_one s params
  have hfr0 : (0:ℝ) ≤ fraction := by linarith
  have hprod : (0.9:ℝ) ≤ s.interval params * fraction := by
    nlinarith [mul_nonneg (by linarith : (0:ℝ) ≤ s.interval params - 1) hfr0]
  have hr : (1:ℤ) ≤ rustRound (s.interval params * fraction) := by
    unfold rustRound
    rw [if_pos (by linarith)]
    refine Int.le_floor.mpr ?_
    push_cast
    linarith
  have hd : (1:ℤ) ≤ satI32 (rustRound (s.interval params * fraction)) := by
    unfold satI32
    omega
  cases hc : Date.checked_add_days date
      (satI32 (rustRound (s.interval params * fraction))) with
  | none => rw [hc] at h; exact Option.noConfusion h
  | some rd =>
      rw [hc] at h
      injection h with h
      subst h
      unfold Date.checked_add_days at hc
      split at hc
      · injection hc with hc
        subst hc
        exact ⟨rfl, by simpa using hd⟩
      · exact Option.noConfusion hc

lemma review_result_dates (s : FSRSState) (answer : ReviewAnswer) (date : Date)
    (track : Bool) (fraction : ℝ) (params : FSRSParams)
    (s' : FSRSState) (res : ReviewResult)
    (hf : (0.9:ℝ) ≤ fraction)
    (h : s.review answer date track fraction params = some (s', res)) :
    (answer = ReviewAnswer.Bury ∧ s'.last_review = s.last_review ∧
        s'.review_date = s.review_date) ∨
      (res = ReviewResult.Again ∧ s'.last_review = date ∧ s'.review_date = date) ∨
      (res = ReviewResult.Discard ∧ s'.last_review = date ∧
        date.day + 1 ≤ s'.review_date.day) := by
  unfold FSRSState.review at h
  by_cases hb : answer = ReviewAnswer.Bury
  · rw [if_pos hb] at h
    simp only [Option.some.injEq, Prod.mk.injEq] at h
    obtain ⟨h1, -⟩ := h
    subst h1
    exact Or.inl ⟨hb, rfl, rfl⟩
  · rw [if_neg hb] at h
    dsimp only at h
    split at h
    · -- first review
      unfold FSRSState.handle_initial_review at h
      cases answer with
      | Bury => exact absurd rfl hb
      | Again =>
          simp only [Option.some.injEq, Prod.mk.injEq] at h
          obtain ⟨h1, h2⟩ := h
          subst h1
          exact Or.inr (Or.inl ⟨h2.symm, rfl, rfl⟩)
      | Easy =>
          rw [Option.map_eq_some'] at h
          obtain ⟨s'', hsucc, heq⟩ := h
          injection heq with he1 he2
          subst he1
          obtain ⟨hl, hrge⟩ := update_review_success_spec _ date fraction params _ hf hsucc
          exact Or.inr (Or.inr ⟨he2.symm, hl, hrge⟩)
      | Good =>
          rw [Option.map_eq_some'] at h
          obtain ⟨s'', hsucc, heq⟩ := h
          injection heq with he1 he2
          subst he1
          obtain ⟨hl, hrge⟩ := update_review_success_spec _ date fraction params _ hf hsucc
          exact Or.inr (Or.inr ⟨he2.symm, hl, hrge⟩)
      | Hard =>
          rw [Option.map_eq_some'] at h
          obtain ⟨s'', hsucc, heq⟩ := h
          injection heq with he1 he2
          subst he1
          obtain ⟨hl, hrge⟩ := update_review_success_spec _ date fraction params _ hf hsucc
          exact Or.inr (Or.inr ⟨he2.symm, hl, hrge⟩)
    · -- reviewed state
      split at h
      · -- Again
        cases hg : grade_f64 answer with
        | none => rw [hg] at h; exact Option.noConfusion h
        | some gv =>
            rw [hg] at h
            simp only [Option.some.injEq, Prod.mk.injEq] at h
            obtain ⟨h1, h2⟩ := h
            subst h1
            exact Or.inr (Or.inl ⟨h2.symm, rfl, rfl⟩)
      · -- Hard/Good/Easy
        cases hg : grade_f64 answer with
        | none => rw [hg] at h; exact Option.noConfusion h
        | some gv =>
            rw [hg] at h
            rw [Option.map_eq_some'] at h
            obtain ⟨s'', hsucc, heq⟩ := h
            injection heq with he1 he2
            subst he1
            obtain ⟨hl, hrge⟩ := update_review_success_spec _ date fraction params _ hf hsucc
            exact Or.inr (Or.inr ⟨he2.symm, hl, hrge⟩)

lemma next_float_ge (g : SplitMix64) :
    (0.9:ℝ) ≤ (g.next_float (1 - RANDOMNESS) (1 + RANDOMNESS)).1 := by
  unfold SplitMix64.next_float RANDOMNESS
  have hz : (0:ℝ) ≤ ((g.next_rand.1 : ℝ) / 2^64) := by positivity
  have h2 : ((1:ℝ) + 0.1) - (1 - 0.1) = 0.2 := by norm_num
  nlinarith [hz]

lemma review_with_rng_some (s : FSRSState) (answer : ReviewAnswer) (date : Date)
    (track : Bool) (g : SplitMix64) (params : FSRSParams)
    (s' : FSRSState) (res : ReviewResult)
    (h : (s.review_with_rng answer date track g params).1 = some (s', res)) :
    ∃ fraction, (0.9:ℝ) ≤ fraction ∧
      s.review answer date track fraction params = some (s', res) := by
  unfold FSRSState.review_with_rng at h
  exact ⟨_, next_float_ge g, h⟩

lemma card_review_offset_bounds (d : Deck) (day : Date) :
    -1 ≤ d.card_review_offset day ∧ d.card_review_offset day ≤ 1 := by
  unfold Deck.card_review_offset
  dsimp only
  split_ifs <;> norm_num

lemma gen_review_index_fields (d : Deck) (g : SplitMix64) :
    (d.gen_review_index g).1.cards = d.cards ∧
      (d.gen_review_index g).1.review_indices = d.review_indices := by
  unfold Deck.gen_review_index
  dsimp only
  split_ifs <;> exact ⟨rfl, rfl⟩

/-- C2 counterexample: the invariant `review_date ≥ last_review` holds for
every card of the deck, yet `Deck::review_card` with the Bury outcome
breaks it — Bury returns `Discard` with the state otherwise untouched, the
stability (3) exceeds the 2.0 threshold, and the load balancer shifts the
due date one day before the unchanged `last_review`. -/
theorem review_card_bury_breaks_invariant :
    (∀ c ∈ ceBuryDeck.cards,
        c.fsrs_state.last_review.day ≤ c.fsrs_state.review_date.day) ∧
      (ceBuryDeck.review_card ReviewAnswer.Bury ⟨0⟩).map
          (fun p => p.1.cards.map
            (fun c => (c.fsrs_state.review_date.day, c.fsrs_state.last_review.day))) =
        some [(-1, 0)] := by
  constructor
  · intro c hc
    rcases List.mem_singleton.mp hc with rfl
    norm_num [ceStartState]
  · unfold Deck.review_card ceBuryDeck Deck.new
    dsimp only
    simp only [List.get?]
    rw [show (ceStartState.review_with_rng ReviewAnswer.Bury ⟨0⟩ false ⟨0⟩
        FSRSParams.new).1 =
      some ({ ceStartState with buried := true }, ReviewResult.Discard) from rfl]
    dsimp only
    rw [if_pos (show ({ ceStartState with buried := true } : FSRSState).stability > 2 by
      norm_num [ceStartState])]
    rfl

/-- C2 (amended): after any review through `review_with_rng` (jitter drawn
from `[0.9, 1.1)`) the state satisfies `review_date ≥ last_review` whenever
it did before; `Deck::review_card` preserves the same invariant on every
card of the deck for every non-Bury outcome (for the Bury pseudo-outcome
the load-balancing shift can break it, as the counterexample shows). -/
theorem review_preserves_date_order :
    (∀ (s : FSRSState) (answer : ReviewAnswer) (date : Date) (track : Bool)
        (g : SplitMix64) (params : FSRSParams) (s' : FSRSState) (res : ReviewResult),
        s.last_review.day ≤ s.review_date.day →
        (s.review_with_rng answer date track g params).1 = some (s', res) →
        s'.last_review.day ≤ s'.review_date.day) ∧
      (∀ (d : Deck) (answer : ReviewAnswer) (g : SplitMix64) (d' : Deck)
          (g' : SplitMix64),
        answer ≠ ReviewAnswer.Bury →
        (∀ c ∈ d.cards, c.fsrs_state.last_review.day ≤ c.fsrs_state.review_date.day) →
        d.review_card answer g = some (d', g') →
        ∀ c ∈ d'.cards, c.fsrs_state.last_review.day ≤ c.fsrs_state.review_date.day) := by
  constructor
  · intro s answer date track g params s' res hinv h
    obtain ⟨fraction, hf, hrev⟩ := review_with_rng_some s answer date track g params s' res h
    rcases review_result_dates s answer date track fraction params s' res hf hrev with
      ⟨-, h1, h2⟩ | ⟨-, h1, h2⟩ | ⟨-, h1, h2⟩
    · rw [h1, h2]; exact hinv
    · rw [h1, h2]
    · rw [h1]; omega
  · intro d answer g d' g' hb hinv h
    unfold Deck.review_card at h
    cases hri : d.review_index with
    | none => rw [hri] at h; exact Option.noConfusion h
    | some review_index =>
    rw [hri] at h
    dsimp only at h
    cases hci : d.review_indices.get? review_index with
    | none => rw [hci] at h; exact Option.noConfusion h
    | some card_index =>
    rw [hci] at h
    dsimp only at h
    cases hrd : d.review_date with
    | none => rw [hrd] at h; exact Option.noConfusion h
    | some rdate =>
    rw [hrd] at h
    dsimp only at h
    cases hcd : d.cards.get? card_index with
    | none => rw [hcd] at h; exact Option.noConfusion h
    | some card =>
    rw [hcd] at h
    dsimp only at h
    cases hrr : (card.fsrs_state.review_with_rng answer rdate d.track_review_history g
        d.params).1 with
    | none => rw [hrr] at h; exact Option.noConfusion h
    | some pr =>
    obtain ⟨s', result⟩ := pr
    rw [hrr] at h
    dsimp only at h
    obtain ⟨fraction, hf, hrev⟩ :=
      review_with_rng_some card.fsrs_state answer rdate d.track_review_history g d.params
        s' result hrr
    have hchar := review_result_dates card.fsrs_state answer rdate d.track_review_history
      fraction d.params s' result hf hrev
    have hs'inv : s'.last_review.day ≤ s'.review_date.day := by
      rcases hchar with ⟨hba, -, -⟩ | ⟨-, h1, h2⟩ | ⟨-, h1, h2⟩
      · exact absurd hba hb
      · rw [h1, h2]
      · rw [h1]; omega
    cases result with
    | Again =>
        injection h with h
        have hfst := congrArg Prod.fst h
        dsimp only at hfst
        intro c hc
        rw [← hfst] at hc
        rw [(gen_review_index_fields _ _).1] at hc
        dsimp only at hc
        rcases List.mem_or_eq_of_mem_set hc with hc | hc
        · exact hinv c hc
        · rw [hc]; exact hs'inv
    | Discard =>
        have hstrict : s'.last_review = rdate ∧ rdate.day + 1 ≤ s'.review_date.day := by
          rcases hchar with ⟨hba, -, -⟩ | ⟨hra, -, -⟩ | ⟨-, h1', h2'⟩
          · exact absurd hba hb
          · exact absurd hra (by simp)
          · exact ⟨h1', h2'⟩
        by_cases hst : s'.stability > 2
        · rw [if_pos hst] at h
          injection h with h
          have hfst := congrArg Prod.fst h
          dsimp only at hfst
          intro c hc
          rw [← hfst] at hc
          rw [(gen_review_index_fields _ _).1] at hc
          dsimp only at hc
          rcases List.mem_or_eq_of_mem_set hc with hc | hc
          · rcases List.mem_or_eq_of_mem_set hc with hc | hc
            · exact hinv c hc
            · rw [hc]; exact hs'inv
          · rw [hc]
            have hoff := card_review_offset_bounds
              { cards := d.cards.set card_index { content := card.content, fsrs_state := s' },
                orphans := d.orphans,
                track_review_history := d.track_review_history,
                parsing_version := d.parsing_version, params := d.params,
                base_cards := d.base_cards, review_index := some review_index,
                edited_cards := d.edited_cards,
                review_indices := d.review_indices, review_date := some rdate }
              s'.review_date
            show s'.last_review.day ≤ s'.review_date.day + _
            rw [hstrict.1]
            omega
        · rw [if_neg hst] at h
          injection h with h
          have hfst := congrArg Prod.fst h
          dsimp only at hfst
          intro c hc
          rw [← hfst] at hc
          rw [(gen_review_index_fields _ _).1] at hc
          dsimp only at hc
          rcases List.mem_or_eq_of_mem_set hc with hc | hc
          · exact hinv c hc
          · rw [hc]; exact hs'inv

/-- C2 witness: both halves of the theorem applied at concrete inputs — a
concrete state reviewed through `review_with_rng`, and a concrete one-card
deck reviewed through `review_card` with the Again outcome. -/
theorem review_preserves_date_order_witness :
    (∃ s' res, ((FSRSState.new ⟨5⟩).review_with_rng ReviewAnswer.Again ⟨5⟩ false
        ⟨0⟩ FSRSParams.new).1 = some (s', res) ∧
      s'.last_review.day ≤ s'.review_date.day) ∧
    (∃ d' g', wRevDeck.review_card ReviewAnswer.Again ⟨0⟩ = some (d', g') ∧
      ∀ c ∈ d'.cards, c.fsrs_state.last_review.day ≤ c.fsrs_state.review_date.day) := by
  constructor
  · have hs : (((FSRSState.new ⟨5⟩).review_with_rng ReviewAnswer.Again ⟨5⟩ false
        ⟨0⟩ FSRSParams.new).1).isSome = true := rfl
    refine ⟨(((FSRSState.new ⟨5⟩).review_with_rng ReviewAnswer.Again ⟨5⟩ false
        ⟨0⟩ FSRSParams.new).1).get hs |>.1,
      (((FSRSState.new ⟨5⟩).review_with_rng ReviewAnswer.Again ⟨5⟩ false
        ⟨0⟩ FSRSParams.new).1).get hs |>.2, (Option.some_get hs).symm, ?_⟩
    exact review_preserves_date_order.1 (FSRSState.new ⟨5⟩) ReviewAnswer.Again ⟨5⟩ false
      ⟨0⟩ FSRSParams.new _ _ (by norm_num [FSRSState.new]) (Option.some_get hs).symm
  · have hs : (wRevDeck.review_card ReviewAnswer.Again ⟨0⟩).isSome = true := rfl
    refine ⟨((wRevDeck.review_card ReviewAnswer.Again ⟨0⟩).get hs).1,
      ((wRevDeck.review_card ReviewAnswer.Again ⟨0⟩).get hs).2,
      (Option.some_get hs).symm, ?_⟩
    refine review_preserves_date_order.2 wRevDeck ReviewAnswer.Again ⟨0⟩ _ _
      (by simp) ?_ (Option.some_get hs).symm
    intro c hc
    rcases List.mem_singleton.mp hc with rfl
    norm_num [FSRSState.new]

/-! ### Review session lemmas (claim C7) -/

lemma gen_review_index_lt (d : Deck) (g : SplitMix64) (p : Nat)
    (hp : (d.gen_review_index g).1.review_index = some p) :
    p < d.review_indices.length := by
  unfold Deck.gen_review_index at hp
  dsimp only at hp
  split_ifs at hp with h0 h1
  · simp at hp
    omega
  · cases hprev : d.review_index with
    | none =>
        rw [hprev] at hp
        simp only [Option.some.injEq] at hp
        subst hp
        exact Nat.mod_lt _ (by omega)
    | some prev =>
        rw [hprev] at hp
        dsimp only at hp
        split_ifs at hp with hcol
        · simp only [Option.some.injEq] at hp
          subst hp
          exact Nat.mod_lt _ (by omega)
        · simp only [Option.some.injEq] at hp
          subst hp
          exact Nat.mod_lt _ (by omega)

lemma gen_review_index_ne_prev (d : Deck) (g : SplitMix64) (prev p : Nat)
    (h2 : 2 ≤ d.review_indices.length) (hprev : d.review_index = some prev)
    (hp : (d.gen_review_index g).1.review_index = some p) :
    p ≠ prev := by
  unfold Deck.gen_review_index at hp
  dsimp only at hp
  split_ifs at hp with h0 h1
  · exact absurd h2 (by omega)
  · rw [hprev] at hp
    dsimp only at hp
    split_ifs at hp with hcol
    · simp only [Option.some.injEq] at hp
      subst hp
      rw [hcol]
      have hprevlt : prev < d.review_indices.length := by
        rw [← hcol]
        exact Nat.mod_lt _ (by omega)
      rcases Nat.lt_or_ge (prev + 1) d.review_indices.length with hlt | hge
      · rw [Nat.mod_eq_of_lt hlt]
        omega
      · have hc : prev + 1 = d.review_indices.length := by omega
        rw [hc, Nat.mod_self]
        omega
    · simp only [Option.some.injEq] at hp
      subst hp
      exact hcol

lemma nodup_get?_ne (l : List Nat) (p q i j : Nat) (hnd : l.Nodup) (hpq : p ≠ q)
    (hp : l.get? p = some i) (hq : l.get? q = some j) : i ≠ j := by
  intro hij
  subst hij
  have hlt : p < l.length := by
    rcases List.get?_eq_some.mp hp with ⟨hl, -⟩
    exact hl
  exact hpq (List.get?_inj hlt hnd (hp.trans hq.symm))

lemma nodup_get?_not_mem_eraseIdx (l : List Nat) :
    ∀ (p i : Nat), l.Nodup → l.get? p = some i → i ∉ l.eraseIdx p := by
  induction l with
  | nil =>
      intro p i _ hp
      exact Option.noConfusion hp
  | cons c rest ih =>
      intro p i hnd hp
      rw [List.nodup_cons] at hnd
      cases p with
      | zero =>
          injection hp with hp
          subst hp
          exact hnd.1
      | succ q =>
          have hp' : rest.get? q = some i := hp
          intro hmem
          have hmem' : i ∈ c :: rest.eraseIdx q := hmem
          rcases List.mem_cons.mp hmem' with h | h
          · subst h
            exact hnd.1 (List.get?_mem hp')
          · exact ih q i hnd.2 hp' h

lemma start_review_inv (d : Deck) (date : Date) (g : SplitMix64) :
    SessionInv (d.start_review date g).1 := by
  unfold Deck.start_review
  constructor
  · rw [(gen_review_index_fields _ _).2]
    exact List.Nodup.filter _ (List.nodup_range _)
  · intro p hp
    rw [(gen_review_index_fields _ _).2]
    exact gen_review_index_lt _ g p hp

lemma review_card_session (d : Deck) (answer : ReviewAnswer) (g : SplitMix64)
    (d' : Deck) (g' : SplitMix64)
    (h : d.review_card answer g = some (d', g')) :
    ∃ (ri ci : Nat) (gin : Deck) (g2 : SplitMix64),
      d.review_index = some ri ∧
      d.review_indices.get? ri = some ci ∧
      gin.review_index = some ri ∧
      (gin.review_indices = d.review_indices ∨
        gin.review_indices = d.review_indices.eraseIdx ri) ∧
      gin.gen_review_index g2 = (d', g') := by
  unfold Deck.review_card at h
  cases hri : d.review_index with
  | none => rw [hri] at h; exact Option.noConfusion h
  | some review_index =>
  rw [hri] at h
  dsimp only at h
  cases hci : d.review_indices.get? review_index with
  | none => rw [hci] at h; exact Option.noConfusion h
  | some card_index =>
  rw [hci] at h
  dsimp only at h
  cases hrd : d.review_date with
  | none => rw [hrd] at h; exact Option.noConfusion h
  | some rdate =>
  rw [hrd] at h
  dsimp only at h
  cases hcd : d.cards.get? card_index with
  | none => rw [hcd] at h; exact Option.noConfusion h
  | some card =>
  rw [hcd] at h
  dsimp only at h
  cases hrr : (card.fsrs_state.review_with_rng answer rdate d.track_review_history g
      d.params).1 with
  | none => rw [hrr] at h; exact Option.noConfusion h
  | some pr =>
  obtain ⟨s', result⟩ := pr
  rw [hrr] at h
  dsimp only at h
  cases result with
  | Again =>
      injection h with h
      refine ⟨review_index, card_index, _, _, rfl, hci, ?_, ?_, h⟩
      · rfl
      · exact Or.inl rfl
  | Discard =>
      by_cases hst : s'.stability > 2
      · rw [if_pos hst] at h
        dsimp only at h
        injection h with h
        refine ⟨review_index, card_index, _, _, rfl, hci, ?_, ?_, h⟩
        · rfl
        · exact Or.inr rfl
      · rw [if_neg hst] at h
        dsimp only at h
        injection h with h
        refine ⟨review_index, card_index, _, _, rfl, hci, ?_, ?_, h⟩
        · rfl
        · exact Or.inr rfl

/-- C7: a freshly started review session satisfies the session invariant,
and `Deck::review_card` preserves it while never handing `get_review_card`
the same deck-card index twice in a row whenever at least two indices remain
active after the answer. -/
theorem no_immediate_repeat :
    (∀ (d : Deck) (date : Date) (g : SplitMix64),
        SessionInv (d.start_review date g).1) ∧
      (∀ (d : Deck) (answer : ReviewAnswer) (g : SplitMix64) (d' : Deck)
          (g' : SplitMix64),
        SessionInv d → d.review_card answer g = some (d', g') →
          SessionInv d' ∧
            ∀ i j, currentCardIndex d = some i → currentCardIndex d' = some j →
              2 ≤ d'.review_indices.length → j ≠ i) := by
  constructor
  · exact start_review_inv
  · intro d answer g d' g' hinv h
    obtain ⟨ri, ci, gin, g2, hri, hci, hgi, hind, hgen⟩ :=
      review_card_session d answer g d' g' h
    have hfst : (gin.gen_review_index g2).1 = d' := by rw [hgen]
    have hindices : d'.review_indices = gin.review_indices := by
      rw [← hfst]
      exact (gen_review_index_fields _ _).2
    have hnd' : d'.review_indices.Nodup := by
      rw [hindices]
      rcases hind with he | he
      · rw [he]; exact hinv.1
      · rw [he]; exact hinv.1.sublist (List.eraseIdx_sublist _ _)
    constructor
    · refine ⟨hnd', ?_⟩
      intro p hp
      rw [hindices]
      exact gen_review_index_lt gin g2 p (by rw [hfst]; exact hp)
    · intro i j hcur hcur' hlen2
      unfold currentCardIndex at hcur hcur'
      rw [hri] at hcur
      simp only [Option.some_bind] at hcur
      have hie : i = ci := by
        have h0 := hci.symm.trans hcur
        injection h0 with h0
        exact h0.symm
      cases hp : d'.review_index with
      | none => rw [hp] at hcur'; exact Option.noConfusion hcur'
      | some p =>
      rw [hp] at hcur'
      simp only [Option.some_bind] at hcur'
      rcases hind with he | he
      · have hpne : p ≠ ri :=
          gen_review_index_ne_prev gin g2 ri p
            (by rw [← hindices]; exact hlen2) hgi
            (by rw [hfst]; exact hp)
        rw [hindices, he] at hcur'
        exact nodup_get?_ne d.review_indices p ri j i hinv.1 hpne hcur' hcur
      · rw [hindices, he] at hcur'
        have hj' : j ∈ d.review_indices.eraseIdx ri := List.get?_mem hcur'
        have hnotmem : ci ∉ d.review_indices.eraseIdx ri :=
          nodup_get?_not_mem_eraseIdx d.review_indices ri ci hinv.1 hci
        intro hji
        rw [hji, hie] at hj'
        exact hnotmem hj'

/-- C7 witness: the no-repeat theorem applied to a concrete two-card
session answering Again. -/
theorem no_immediate_repeat_witness :
    SessionInv wC7Deck ∧
      (∃ d' g', wC7Deck.review_card ReviewAnswer.Again ⟨0⟩ = some (d', g') ∧
        (SessionInv d' ∧
          ∀ i j, currentCardIndex wC7Deck = some i → currentCardIndex d' = some j →
            2 ≤ d'.review_indices.length → j ≠ i)) := by
  have hinv : SessionInv wC7Deck := by
    constructor
    · decide
    · intro p hp
      have hp' : some 0 = some p := hp
      injection hp' with hp'
      subst hp'
      decide
  have hs : (wC7Deck.review_card ReviewAnswer.Again ⟨0⟩).isSome = true := rfl
  refine ⟨hinv, ((wC7Deck.review_card ReviewAnswer.Again ⟨0⟩).get hs).1,
    ((wC7Deck.review_card ReviewAnswer.Again ⟨0⟩).get hs).2,
    (Option.some_get hs).symm, ?_⟩
  exact no_immediate_repeat.2 wC7Deck ReviewAnswer.Again ⟨0⟩ _ _ hinv
    (Option.some_get hs).symm


/-! ### Rescheduler lemmas (claim C6) -/

/-- A list is related to itself by `onlyWindowChanges`. -/
lemma onlyWindowChanges_refl (f : Date) (days : Int) (l : List Card) :
    onlyWindowChanges f days l l := by
  intro i c c' h1 h2 hne
  rw [h1] at h2
  injection h2 with h2
  exact absurd h2.symm hne

/-- `onlyWindowChanges` composes along equal-length steps. -/
lemma onlyWindowChanges_trans (f : Date) (days : Int) (l1 l2 l3 : List Card)
    (hlen : l2.length = l1.length)
    (h12 : onlyWindowChanges f days l1 l2) (h23 : onlyWindowChanges f days l2 l3) :
    onlyWindowChanges f days l1 l3 := by
  intro i c c'' h1 h3 hne
  have hi : i < l2.length := by
    rw [hlen]
    exact (List.get?_eq_some.mp h1).1
  obtain ⟨cm, h2⟩ : ∃ cm, l2.get? i = some cm := ⟨l2.get ⟨i, hi⟩, List.get?_eq_get hi⟩
  by_cases hcm : c'' = cm
  · subst hcm
    exact h12 i c c'' h1 h2 hne
  · exact h23 i cm c'' h2 h3 hcm

/-- Setting one position to an in-window card only makes window changes. -/
lemma onlyWindowChanges_set (f : Date) (days : Int) (l : List Card)
    (idx : Nat) (x : Card) (hx : inWindow f days x) :
    onlyWindowChanges f days l (l.set idx x) := by
  intro i c c' h1 h2 hne
  by_cases hii : idx = i
  · subst hii
    rw [List.get?_set_eq, h1] at h2
    simp only [Option.map_eq_map, Option.map_some', Function.const_apply,
      Option.some.injEq] at h2
    rw [← h2]
    exact hx
  · rw [List.get?_set_ne _ _ hii, h1] at h2
    injection h2 with h2
    exact absurd h2.symm hne

/-- Incrementing one entry of a `Nat`-list raises the sum by one. -/
lemma sum_set_getD_succ : ∀ (l : List Nat) (i : Nat), i < l.length →
    (l.set i (l.getD i 0 + 1)).sum = l.sum + 1 := by
  intro l
  induction l with
  | nil => intro i h; simp at h
  | cons a as ih =>
      intro i h
      cases i with
      | zero =>
          show (((a :: as).getD 0 0 + 1) :: as).sum = (a :: as).sum + 1
          simp only [List.getD_cons_zero, List.sum_cons]
          omega
      | succ j =>
          have hj : j < as.length := by simpa using h
          show (a :: as.set j (as.getD j 0 + 1)).sum = (a :: as).sum + 1
          simp only [List.sum_cons]
          rw [ih j hj]
          omega

/-- Pigeonhole on the day counters: if the total stays strictly below
`length * cap`, some day has a free slot. -/
lemma exists_slot_lt (cap : Nat) : ∀ (l : List Nat), l.sum < l.length * cap →
    ∃ j, j < l.length ∧ l.getD j 0 < cap := by
  intro l
  induction l with
  | nil => intro h; simp at h
  | cons a as ih =>
      intro h
      by_cases ha : a < cap
      · exact ⟨0, by simp, by simpa [List.getD_cons_zero] using ha⟩
      · have hs : as.sum < as.length * cap := by
          simp only [List.sum_cons, List.length_cons] at h
          rw [Nat.succ_mul] at h
          omega
        obtain ⟨j, hj, hval⟩ := ih hs
        exact ⟨j + 1, by simpa using Nat.succ_lt_succ hj, hval⟩

/-- Ceiling-division capacity: `total` cards fit into `days` days at
`cardsPerDayOf total days` cards per day. -/
lemma le_mul_cardsPerDayOf (total : Nat) (days : Int) (h : 1 ≤ days) :
    total ≤ days.toNat * cardsPerDayOf total days := by
  unfold cardsPerDayOf
  rw [if_pos (by omega)]
  have hd : 1 ≤ days.toNat := by omega
  set d := days.toNat with hdd
  have h1 := Nat.div_add_mod (total + d - 1) d
  have h2 : (total + d - 1) % d < d := Nat.mod_lt _ (by omega)
  zify [show 1 ≤ total + d by omega] at h1 h2 ⊢
  linarith [h1, h2]

/-- The candidate scan never panics when every candidate day stays inside
the `i32` range. -/
lemma reschedule_try_days_total (card : Card) (cap : Nat)
    (first_day : Date) (days : Int) (maxDiff : Nat) :
    ∀ (lst : List Nat) (counts : List Nat),
      (∀ i ∈ lst,
        -(2^31) ≤ card.fsrs_state.review_date.day + (-(maxDiff : Int) + i) ∧
          card.fsrs_state.review_date.day + (-(maxDiff : Int) + i) < 2^31) →
      ∃ r, reschedule_try_days card counts cap first_day days maxDiff lst = some r := by
  intro lst
  induction lst with
  | nil => intro counts _; exact ⟨none, rfl⟩
  | cons i rest ih =>
      intro counts hb
      have hbi := hb i (List.mem_cons_self i rest)
      unfold reschedule_try_days
      rw [show card.fsrs_state.review_date.checked_add_days (-(maxDiff : Int) + (i : Int)) =
          some ⟨card.fsrs_state.review_date.day + (-(maxDiff : Int) + i)⟩ from by
        unfold Date.checked_add_days; rw [if_pos hbi]]
      dsimp only
      split_ifs with hc
      · exact ⟨_, rfl⟩
      · exact ih counts (fun j hj => hb j (List.mem_cons_of_mem i hj))

/-- The candidate scan places the card as soon as some listed candidate is
inside the window with spare capacity (and no earlier candidate panics). -/
lemma reschedule_try_days_hits (card : Card) (cap : Nat)
    (first_day : Date) (days : Int) (maxDiff : Nat) :
    ∀ (lst : List Nat) (counts : List Nat),
      (∀ i ∈ lst,
        -(2^31) ≤ card.fsrs_state.review_date.day + (-(maxDiff : Int) + i) ∧
          card.fsrs_state.review_date.day + (-(maxDiff : Int) + i) < 2^31) →
      (∃ i ∈ lst,
        0 ≤ card.fsrs_state.review_date.day + (-(maxDiff : Int) + i) - first_day.day ∧
        card.fsrs_state.review_date.day + (-(maxDiff : Int) + i) - first_day.day < days ∧
        counts.getD
          (card.fsrs_state.review_date.day + (-(maxDiff : Int) + i) - first_day.day).toNat
          0 < cap) →
      ∃ pc, reschedule_try_days card counts cap first_day days maxDiff lst =
        some (some pc) := by
  intro lst
  induction lst with
  | nil => intro counts _ hex; simp at hex
  | cons i rest ih =>
      intro counts hb hex
      have hbi := hb i (List.mem_cons_self i rest)
      unfold reschedule_try_days
      rw [show card.fsrs_state.review_date.checked_add_days (-(maxDiff : Int) + (i : Int)) =
          some ⟨card.fsrs_state.review_date.day + (-(maxDiff : Int) + i)⟩ from by
        unfold Date.checked_add_days; rw [if_pos hbi]]
      dsimp only
      split_ifs with hc
      · exact ⟨_, rfl⟩
      · apply ih counts (fun j hj => hb j (List.mem_cons_of_mem i hj))
        rcases hex with ⟨j, hj, hjv⟩
        rcases List.mem_cons.mp hj with hji | hjr
        · subst hji
          exact absurd hjv hc
        · exact ⟨j, hjr, hjv⟩

/-- Characterization of a successful placement: the returned card is the
input card moved to a date inside the window, and the counter of that day
is incremented. -/
lemma reschedule_try_days_spec (card : Card) (cap : Nat)
    (first_day : Date) (days : Int) (maxDiff : Nat) :
    ∀ (lst counts : List Nat) (card' : Card) (counts' : List Nat),
      reschedule_try_days card counts cap first_day days maxDiff lst =
        some (some (card', counts')) →
      ∃ dayv : Date,
        card' = { card with fsrs_state := { card.fsrs_state with review_date := dayv } } ∧
        first_day.day ≤ dayv.day ∧ dayv.day < first_day.day + days ∧
        counts' = counts.set (dayv.day - first_day.day).toNat
          (counts.getD (dayv.day - first_day.day).toNat 0 + 1) ∧
        (dayv.day - first_day.day).toNat < days.toNat := by
  intro lst
  induction lst with
  | nil => intro counts card' counts' h; simp [reschedule_try_days] at h
  | cons i rest ih =>
      intro counts card' counts' h
      unfold reschedule_try_days at h
      cases hadd : card.fsrs_state.review_date.checked_add_days
          (-(maxDiff : Int) + (i : Int)) with
      | none => rw [hadd] at h; exact absurd h (by simp)
      | some day =>
          rw [hadd] at h
          dsimp only at h
          split_ifs at h with hc
          · simp only [Option.some.injEq] at h
            injection h with h1 h2
            refine ⟨day, h1.symm, ?_, ?_, h2.symm, ?_⟩
            · omega
            · omega
            · omega
          · exact ih counts card' counts' h

/-- The fold of `maxDistOf` only grows its accumulator. -/
lemma maxDist_foldl_ge_init (cards : List Card) (first_day : Date) :
    ∀ (l : List Nat) (a : Nat),
      a ≤ l.foldl
        (fun acc idx =>
          match cards.get? idx with
          | some card => max acc (card.fsrs_state.review_date.day - first_day.day).natAbs
          | none => acc) a := by
  intro l
  induction l with
  | nil => intro a; exact le_refl a
  | cons x xs ih =>
      intro a
      refine le_trans ?_ (ih _)
      dsimp only
      cases hx : cards.get? x with
      | none => exact le_refl a
      | some card => exact le_max_left _ _

/-- Every selected card's distance is below the fold of `maxDistOf`. -/
lemma maxDist_foldl_ge_mem (cards : List Card) (first_day : Date) :
    ∀ (l : List Nat) (a : Nat) (idx : Nat) (c : Card), idx ∈ l →
      cards.get? idx = some c →
      (c.fsrs_state.review_date.day - first_day.day).natAbs ≤
        l.foldl
          (fun acc idx =>
            match cards.get? idx with
            | some card => max acc (card.fsrs_state.review_date.day - first_day.day).natAbs
            | none => acc) a := by
  intro l
  induction l with
  | nil => intro a idx c h; simp at h
  | cons x xs ih =>
      intro a idx c hmem hc
      rcases List.mem_cons.mp hmem with hx | hxs
      · subst hx
        refine le_trans ?_ (maxDist_foldl_ge_init cards first_day xs _)
        dsimp only
        rw [hc]
        exact le_max_right _ _
      · exact ih _ idx c hxs hc

/-- The fold of `maxDistOf` is bounded by any bound on the accumulator and
the individual distances. -/
lemma maxDist_foldl_le (cards : List Card) (first_day : Date) (b : Nat) :
    ∀ (l : List Nat) (a : Nat), a ≤ b →
      (∀ idx ∈ l, ∀ c, cards.get? idx = some c →
        (c.fsrs_state.review_date.day - first_day.day).natAbs ≤ b) →
      l.foldl
        (fun acc idx =>
          match cards.get? idx with
          | some card => max acc (card.fsrs_state.review_date.day - first_day.day).natAbs
          | none => acc) a ≤ b := by
  intro l
  induction l with
  | nil => intro a ha _; exact ha
  | cons x xs ih =>
      intro a ha hall
      refine ih _ ?_ (fun idx hidx => hall idx (List.mem_cons_of_mem x hidx))
      dsimp only
      cases hx : cards.get? x with
      | none => exact ha
      | some card => exact max_le ha (hall x (List.mem_cons_self x xs) card hx)

/-- One pass over the unplaced indices: it never panics (under the `i32`
bounds implied by the distance bound `D0`), makes only in-window changes,
leaves unplaced positions untouched, and places everything once the radius
reaches `D0 + days`. -/
lemma reschedule_pass_spec (cap : Nat) (first_day : Date) (days : Int)
    (maxDiff D0 : Nat)
    (hdays1 : 1 ≤ days) (hdays2 : days ≤ 2^24)
    (hfirst : first_day.day.natAbs ≤ 2^24)
    (hD0 : D0 ≤ 2^25)
    (hmd : maxDiff ≤ D0 + days.toNat) :
    ∀ (indices : List Nat) (cards : List Card) (counts : List Nat),
      indices.Nodup →
      (∀ idx ∈ indices, ∃ c, cards.get? idx = some c ∧
        (c.fsrs_state.review_date.day - first_day.day).natAbs ≤ D0) →
      counts.length = days.toNat →
      counts.sum + indices.length ≤ days.toNat * cap →
      ∃ cards' counts' rem,
        reschedule_pass cards counts cap first_day days maxDiff indices =
          some (cards', counts', rem) ∧
        cards'.length = cards.length ∧
        onlyWindowChanges first_day days cards cards' ∧
        rem.Sublist indices ∧
        counts'.length = counts.length ∧
        counts'.sum + rem.length ≤ counts.sum + indices.length ∧
        (∀ p, (p ∈ rem ∨ p ∉ indices) → cards'.get? p = cards.get? p) ∧
        (D0 + days.toNat ≤ maxDiff → rem = []) := by
  intro indices
  induction indices with
  | nil =>
      intro cards counts _ _ _ _
      exact ⟨cards, counts, [], rfl, rfl, onlyWindowChanges_refl _ _ _,
        List.Sublist.refl [], rfl, by simp, fun p _ => rfl, fun _ => rfl⟩
  | cons idx rest ih =>
      intro cards counts hnd hvalid hclen hcap
      obtain ⟨c, hc, hdist⟩ := hvalid idx (List.mem_cons_self idx rest)
      have hndr : rest.Nodup := (List.nodup_cons.mp hnd).2
      have hnm : idx ∉ rest := (List.nodup_cons.mp hnd).1
      have hbnd : ∀ i ∈ List.range (2 * maxDiff + 1),
          -(2^31) ≤ c.fsrs_state.review_date.day + (-(maxDiff : Int) + i) ∧
            c.fsrs_state.review_date.day + (-(maxDiff : Int) + i) < 2^31 := by
        intro i hi
        have hi' : i < 2 * maxDiff + 1 := List.mem_range.mp hi
        constructor <;> omega
      obtain ⟨r, hr⟩ := reschedule_try_days_total c cap first_day days maxDiff
        (List.range (2 * maxDiff + 1)) counts hbnd
      cases r with
      | none =>
          obtain ⟨cards', counts', rem0, hrec, hlen, hwin, hsub, hclen', hsum, hunch, hfull⟩ :=
            ih cards counts hndr
              (fun j hj => hvalid j (List.mem_cons_of_mem idx hj)) hclen
              (by simp only [List.length_cons] at hcap; omega)
          refine ⟨cards', counts', idx :: rem0, ?_, hlen, hwin, ?_, hclen', ?_, ?_, ?_⟩
          · unfold reschedule_pass
            rw [hc]
            dsimp only
            rw [hr]
            dsimp only
            rw [hrec]
            rfl
          · exact List.Sublist.cons₂ idx hsub
          · simp only [List.length_cons]
            omega
          · intro p hp
            rcases hp with hp | hp
            · rcases List.mem_cons.mp hp with hpi | hpr
              · subst hpi
                exact hunch p (Or.inr hnm)
              · exact hunch p (Or.inl hpr)
            · exact hunch p (Or.inr (fun hpr => hp (List.mem_cons_of_mem idx hpr)))
          · intro hbig
            exfalso
            have hsumlt : counts.sum < counts.length * cap := by
              rw [hclen]
              simp only [List.length_cons] at hcap
              omega
            obtain ⟨j, hj, hslot⟩ := exists_slot_lt cap counts hsumlt
            have hjd : j < days.toNat := by omega
            have hex : ∃ i ∈ List.range (2 * maxDiff + 1),
                0 ≤ c.fsrs_state.review_date.day + (-(maxDiff : Int) + i) - first_day.day ∧
                c.fsrs_state.review_date.day + (-(maxDiff : Int) + i) - first_day.day < days ∧
                counts.getD
                  (c.fsrs_state.review_date.day + (-(maxDiff : Int) + i)
                    - first_day.day).toNat 0 < cap := by
              refine ⟨((maxDiff : Int) + (first_day.day + (j : Int)
                  - c.fsrs_state.review_date.day)).toNat,
                List.mem_range.mpr (by omega), by omega, by omega, ?_⟩
              rw [show (c.fsrs_state.review_date.day + (-(maxDiff : Int)
                  + (((maxDiff : Int) + (first_day.day + (j : Int)
                    - c.fsrs_state.review_date.day)).toNat : Int))
                  - first_day.day).toNat = j from by omega]
              exact hslot
            obtain ⟨pc, hpc⟩ := reschedule_try_days_hits c cap first_day days maxDiff
              (List.range (2 * maxDiff + 1)) counts hbnd hex
            rw [hr] at hpc
            exact absurd hpc (by simp)
      | some pc =>
          obtain ⟨card1, counts1⟩ := pc
          obtain ⟨dayv, hcard1, hw1, hw2, hcounts1, hnidx⟩ :=
            reschedule_try_days_spec c cap first_day days maxDiff
              (List.range (2 * maxDiff + 1)) counts card1 counts1 hr
          have hinw : inWindow first_day days card1 := by
            rw [hcard1]
            exact ⟨hw1, hw2⟩
          have hvalid' : ∀ j ∈ rest, ∃ c', (cards.set idx card1).get? j = some c' ∧
              (c'.fsrs_state.review_date.day - first_day.day).natAbs ≤ D0 := by
            intro j hj
            obtain ⟨c', hc', hd'⟩ := hvalid j (List.mem_cons_of_mem idx hj)
            refine ⟨c', ?_, hd'⟩
            rw [List.get?_set_ne _ _ (by intro he; subst he; exact hnm hj)]
            exact hc'
          have hclen1 : counts1.length = counts.length := by
            rw [hcounts1, List.length_set]
          have hsum1 : counts1.sum = counts.sum + 1 := by
            rw [hcounts1]
            exact sum_set_getD_succ counts _ (by omega)
          obtain ⟨cards', counts', rem0, hrec, hlen, hwin, hsub, hclen', hsum, hunch, hfull⟩ :=
            ih (cards.set idx card1) counts1 hndr hvalid'
              (by rw [hclen1, hclen])
              (by rw [hsum1]
                  simp only [List.length_cons] at hcap
                  omega)
          refine ⟨cards', counts', rem0, ?_, ?_, ?_, List.Sublist.cons idx hsub,
            ?_, ?_, ?_, hfull⟩
          · unfold reschedule_pass
            rw [hc]
            dsimp only
            rw [hr]
            dsimp only
            exact hrec
          · rw [hlen, List.length_set]
          · exact onlyWindowChanges_trans first_day days cards (cards.set idx card1) cards'
              (List.length_set cards idx card1)
              (onlyWindowChanges_set first_day days cards idx card1 hinw) hwin
          · rw [hclen', hclen1]
          · rw [hsum1] at hsum
            simp only [List.length_cons]
            omega
          · intro p hp
            have hpne : p ≠ idx := by
              rcases hp with hp | hp
              · intro he
                subst he
                exact hnm (hsub.subset hp)
              · intro he
                subst he
                exact hp (List.mem_cons_self p rest)
            have hp' : (p ∈ rem0 ∨ p ∉ rest) := by
              rcases hp with hp | hp
              · exact Or.inl hp
              · exact Or.inr (fun hpr => hp (List.mem_cons_of_mem idx hpr))
            rw [hunch p hp', List.get?_set_ne _ _ (fun he => hpne he.symm)]

/-- The placement loop terminates with only in-window changes whenever its
fuel plus the starting radius covers `D0 + days + 2`. -/
lemma reschedule_loop_spec (cap : Nat) (first_day : Date) (days : Int) (D0 : Nat)
    (hdays1 : 1 ≤ days) (hdays2 : days ≤ 2^24)
    (hfirst : first_day.day.natAbs ≤ 2^24)
    (hD0 : D0 ≤ 2^25) :
    ∀ (fuel : Nat) (indices : List Nat) (cards : List Card) (counts : List Nat)
      (maxDiff : Nat),
      indices.Nodup →
      (∀ idx ∈ indices, ∃ c, cards.get? idx = some c ∧
        (c.fsrs_state.review_date.day - first_day.day).natAbs ≤ D0) →
      counts.length = days.toNat →
      counts.sum + indices.length ≤ days.toNat * cap →
      maxDiff ≤ D0 + days.toNat →
      D0 + days.toNat + 2 ≤ fuel + maxDiff →
      ∃ cards', reschedule_loop cards counts cap first_day days fuel indices maxDiff =
          some cards' ∧
        cards'.length = cards.length ∧
        onlyWindowChanges first_day days cards cards' := by
  intro fuel
  induction fuel with
  | zero =>
      intro indices cards counts maxDiff _ _ _ _ hmd hfuel
      exfalso
      omega
  | succ fuel ih =>
      intro indices cards counts maxDiff hnd hvalid hclen hcap hmd hfuel
      by_cases hemp : indices = []
      · subst hemp
        refine ⟨cards, ?_, rfl, onlyWindowChanges_refl _ _ _⟩
        unfold reschedule_loop
        rw [if_pos rfl]
      · obtain ⟨cards1, counts1, rem, hpass, hlen1, hwin1, hsub, hclen1, hsum1,
            hunch, hfull⟩ :=
          reschedule_pass_spec cap first_day days maxDiff D0 hdays1 hdays2 hfirst hD0 hmd
            indices cards counts hnd hvalid hclen hcap
        by_cases hbig : D0 + days.toNat ≤ maxDiff
        · have hrem : rem = [] := hfull hbig
          cases fuel with
          | zero => exfalso; omega
          | succ fuel2 =>
              refine ⟨cards1, ?_, hlen1, hwin1⟩
              unfold reschedule_loop
              rw [if_neg hemp, hpass, hrem]
              dsimp only
              unfold reschedule_loop
              rw [if_pos rfl]
        · have hvalid1 : ∀ idx ∈ rem, ∃ c, cards1.get? idx = some c ∧
              (c.fsrs_state.review_date.day - first_day.day).natAbs ≤ D0 := by
            intro j hj
            obtain ⟨c, hc, hd⟩ := hvalid j (hsub.subset hj)
            refine ⟨c, ?_, hd⟩
            rw [hunch j (Or.inl hj)]
            exact hc
          obtain ⟨cards', hloop, hlen', hwin'⟩ :=
            ih rem cards1 counts1 (maxDiff + 1) (List.Nodup.sublist hsub hnd) hvalid1
              (by rw [hclen1]; exact hclen)
              (by have := hsub.length_le; omega)
              (by omega) (by omega)
          refine ⟨cards', ?_, by rw [hlen', hlen1],
            onlyWindowChanges_trans first_day days cards cards1 cards' hlen1 hwin1 hwin'⟩
          unfold reschedule_loop
          rw [if_neg hemp, hpass]
          dsimp only
          exact hloop

/-- **C6**: for every deck, window start, window length `days ≥ 1` and
caller-supplied daily maximum (including 0), `Deck::reschedule` terminates
— the radius growth is bounded by the initial maximal distance plus the
window length, which the model's fuel covers — and every card whose due
date it changes is assigned a date inside `[first_day, first_day + days)`.
The date-magnitude hypotheses delimit the runs on which the source's
`checked_add_days(..).unwrap()` cannot panic. -/
theorem reschedule_terminates_in_window (d : Deck) (first_day : Date) (days : Int)
    (max_cards_per_day : Nat)
    (h1 : 1 ≤ days) (h2 : days ≤ 2^24) (h3 : first_day.day.natAbs ≤ 2^24)
    (h4 : ∀ c ∈ d.cards, c.fsrs_state.review_date.day.natAbs ≤ 2^24) :
    ∃ d', d.reschedule first_day days max_cards_per_day = some d' ∧
      d'.cards.length = d.cards.length ∧
      ∀ i c c', d.cards.get? i = some c → d'.cards.get? i = some c' → c' ≠ c →
        first_day.day ≤ c'.fsrs_state.review_date.day ∧
          c'.fsrs_state.review_date.day < first_day.day + days := by
  have hD0 : maxDistOf d.cards
      ((List.range d.cards.length).filter (fun i =>
        match d.cards.get? i with
        | some card =>
            !card.fsrs_state.buried &&
              (card.fsrs_state.review_date.day - first_day.day < days)
        | none => false)) first_day ≤ 2^25 := by
    unfold maxDistOf
    refine maxDist_foldl_le d.cards first_day (2^25) _ 0 (Nat.zero_le _) ?_
    intro idx _ c hc
    have hmem : c ∈ d.cards := List.get?_mem hc
    have := h4 c hmem
    omega
  have hvalid : ∀ idx ∈ (List.range d.cards.length).filter (fun i =>
      match d.cards.get? i with
      | some card =>
          !card.fsrs_state.buried &&
            (card.fsrs_state.review_date.day - first_day.day < days)
      | none => false),
      ∃ c, d.cards.get? idx = some c ∧
        (c.fsrs_state.review_date.day - first_day.day).natAbs ≤
          maxDistOf d.cards
            ((List.range d.cards.length).filter (fun i =>
              match d.cards.get? i with
              | some card =>
                  !card.fsrs_state.buried &&
                    (card.fsrs_state.review_date.day - first_day.day < days)
              | none => false)) first_day := by
    intro idx hidx
    obtain ⟨hr, hp⟩ := List.mem_filter.mp hidx
    cases hg : d.cards.get? idx with
    | none => rw [hg] at hp; simp at hp
    | some c =>
        refine ⟨c, rfl, ?_⟩
        unfold maxDistOf
        exact maxDist_foldl_ge_mem d.cards first_day _ 0 idx c hidx hg
  have hcap : (List.replicate days.toNat 0).sum +
      ((List.range d.cards.length).filter (fun i =>
        match d.cards.get? i with
        | some card =>
            !card.fsrs_state.buried &&
              (card.fsrs_state.review_date.day - first_day.day < days)
        | none => false)).length ≤
      days.toNat * max max_cards_per_day
        (cardsPerDayOf ((List.range d.cards.length).filter (fun i =>
          match d.cards.get? i with
          | some card =>
              !card.fsrs_state.buried &&
                (card.fsrs_state.review_date.day - first_day.day < days)
          | none => false)).length days) := by
    have hs : (List.replicate days.toNat (0 : Nat)).sum = 0 := by simp
    rw [hs, Nat.zero_add]
    refine le_trans (le_mul_cardsPerDayOf _ days h1) ?_
    exact Nat.mul_le_mul_left _ (le_max_right _ _)
  obtain ⟨cards', hloop, hlen, hwin⟩ :=
    reschedule_loop_spec
      (max max_cards_per_day
        (cardsPerDayOf ((List.range d.cards.length).filter (fun i =>
          match d.cards.get? i with
          | some card =>
              !card.fsrs_state.buried &&
                (card.fsrs_state.review_date.day - first_day.day < days)
          | none => false)).length days))
      first_day days
      (maxDistOf d.cards
        ((List.range d.cards.length).filter (fun i =>
          match d.cards.get? i with
          | some card =>
              !card.fsrs_state.buried &&
                (card.fsrs_state.review_date.day - first_day.day < days)
          | none => false)) first_day)
      h1 h2 h3 hD0
      (maxDistOf d.cards
        ((List.range d.cards.length).filter (fun i =>
          match d.cards.get? i with
          | some card =>
              !card.fsrs_state.buried &&
                (card.fsrs_state.review_date.day - first_day.day < days)
          | none => false)) first_day + days.toNat + 2)
      ((List.range d.cards.length).filter (fun i =>
        match d.cards.get? i with
        | some card =>
            !card.fsrs_state.buried &&
              (card.fsrs_state.review_date.day - first_day.day < days)
        | none => false))
      d.cards (List.replicate days.toNat 0) 0
      (List.Nodup.filter _ (List.nodup_range _)) hvalid
      (by simp) hcap (Nat.zero_le _) (by omega)
  refine ⟨{ d with cards := cards' }, ?_, hlen, ?_⟩
  · have hre : d.reschedule first_day days max_cards_per_day =
        (reschedule_loop d.cards (List.replicate days.toNat 0)
          (max max_cards_per_day
            (cardsPerDayOf ((List.range d.cards.length).filter (fun i =>
              match d.cards.get? i with
              | some card =>
                  !card.fsrs_state.buried &&
                    (card.fsrs_state.review_date.day - first_day.day < days)
              | none => false)).length days))
          first_day days
          (maxDistOf d.cards
            ((List.range d.cards.length).filter (fun i =>
              match d.cards.get? i with
              | some card =>
                  !card.fsrs_state.buried &&
                    (card.fsrs_state.review_date.day - first_day.day < days)
              | none => false)) first_day + days.toNat + 2)
          ((List.range d.cards.length).filter (fun i =>
            match d.cards.get? i with
            | some card =>
                !card.fsrs_state.buried &&
                  (card.fsrs_state.review_date.day - first_day.day < days)
            | none => false)) 0).map
          (fun cards'' => { d with cards := cards'' }) := rfl
    rw [hre, hloop]
    rfl
  · intro i c c' hc hc' hne
    exact hwin i c c' hc hc' hne

/-- C6 witness: the reschedule theorem applied to a one-card deck, a
one-day window starting at day 0 and a pathological caller cap of 0. -/
theorem reschedule_terminates_in_window_witness :
    (1 : Int) ≤ 1 ∧ (1 : Int) ≤ 2^24 ∧ (⟨0⟩ : Date).day.natAbs ≤ 2^24 ∧
      (∀ c ∈ wRescDeck.cards, c.fsrs_state.review_date.day.natAbs ≤ 2^24) ∧
      ∃ d', wRescDeck.reschedule ⟨0⟩ 1 0 = some d' ∧
        d'.cards.length = wRescDeck.cards.length ∧
        ∀ i c c', wRescDeck.cards.get? i = some c → d'.cards.get? i = some c' →
          c' ≠ c →
          (⟨0⟩ : Date).day ≤ c'.fsrs_state.review_date.day ∧
            c'.fsrs_state.review_date.day < (⟨0⟩ : Date).day + 1 := by
  have h4 : ∀ c ∈ wRescDeck.cards, c.fsrs_state.review_date.day.natAbs ≤ 2^24 := by
    intro c hc
    have hc' : c ∈ [wRescCard] := hc
    rw [List.mem_singleton] at hc'
    subst hc'
    show (0 : Int).natAbs ≤ 2^24
    decide
  exact ⟨le_refl 1, by norm_num, by decide, h4,
    reschedule_terminates_in_window wRescDeck ⟨0⟩ 1 0 (le_refl 1) (by norm_num)
      (by decide) h4⟩

end Tmemo
